import Mathlib

set_option maxRecDepth 100000

/-!
Verification of the `apm` crate (Apple Partition Map reader/writer).

The Rust source (`src/apm/src/lib.rs`) is shallowly embedded here:
bytes are `Nat` values (< 256 in every buffer the code builds), buffers
are `List Nat`, Rust `u16`/`u32` arithmetic is `Nat` arithmetic with an
explicit `% 2^16` / `% 2^32` where the machine width is observable,
fallible operations return `Option`/`Except`, and a Rust panic is
modelled as `Option.none` (for plain functions) or the dedicated
`MutResult.crash` outcome (for the mutating `ApmMap` operations).
Rust `String` labels are modelled as their byte lists (`List Nat`),
matching the source's own byte-for-byte handling (`ch as u8`).
-/

namespace Apm

/-- Big-endian encoding of a 16-bit value, as written by deku for `u16`. -/
def u16be (v : Nat) : List Nat :=
  [v / 256 % 256, v % 256]

/-- Big-endian encoding of a 32-bit value, as written by deku for `u32`. -/
def u32be (v : Nat) : List Nat :=
  [v / 16777216 % 256, v / 65536 % 256, v / 256 % 256, v % 256]

/-- Big-endian read of a 16-bit value; fails when fewer than 2 bytes remain
(deku errors on insufficient bytes). -/
def parseU16 : List Nat → Option (Nat × List Nat)
  | a :: b :: rest => some (a * 256 + b, rest)
  | _ => none

/-- Big-endian read of a 32-bit value; fails when fewer than 4 bytes remain. -/
def parseU32 : List Nat → Option (Nat × List Nat)
  | a :: b :: c :: d :: rest => some (((a * 256 + b) * 256 + c) * 256 + d, rest)
  | _ => none

/-- Skip `n` bytes (deku `pad_bytes_before` on read); fails when fewer remain. -/
def skipN (n : Nat) (l : List Nat) : Option (List Nat) :=
  if n ≤ l.length then some (l.drop n) else none

/-- `PartitionEntry::read_string::<LEN>`: read exactly `cap` bytes and keep the
prefix up to the first zero byte (`take_while(|v| *v != 0)`). -/
def readStringN (cap : Nat) (l : List Nat) : Option (List Nat × List Nat) :=
  if cap ≤ l.length then some ((l.take cap).takeWhile (· ≠ 0), l.drop cap) else none

/-- `PartitionEntry::write_string::<LEN>`: a zeroed `cap`-byte buffer is filled
with the label's characters (`ret[i] = ch as u8`).  When the label is longer
than `cap` the indexing `ret[i]` panics (index out of bounds), modelled as
`none`; the source reports no error value for this case. -/
def writeStringN (cap : Nat) (s : List Nat) : Option (List Nat) :=
  if s.length ≤ cap then
    some (s.map (· % 256) ++ List.replicate (cap - s.length) 0)
  else
    none

/-- `DriverData` (src/apm/src/lib.rs:59): one 8-byte driver record. -/
structure DriverData where
  start : Nat
  size : Nat
  system_type : Nat
deriving DecidableEq

/-- `DriverDescriptorBlock` (src/apm/src/lib.rs:8): the block-0 header. -/
structure DriverDescriptorBlock where
  block_size : Nat
  blk_count : Nat
  dev_type : Nat
  dev_id : Nat
  data : Nat
  driver_count : Nat
  drivers : List DriverData
deriving DecidableEq

/-- `DriverDescriptorBlock::default()`. -/
def DriverDescriptorBlock.default : DriverDescriptorBlock :=
  { block_size := 0x200, blk_count := 0, dev_type := 1, dev_id := 1,
    data := 0, driver_count := 0, drivers := [] }

/-- `PartitionEntry` (src/apm/src/lib.rs:85): one 512-byte table record.
Label fields hold the Rust strings' bytes. -/
structure PartitionEntry where
  sig : Nat
  partition_count : Nat
  start : Nat
  length : Nat
  name : List Nat
  ty : List Nat
  data_start : Nat
  data_count : Nat
  status : Nat
  boot_start : Nat
  boot_size : Nat
  boot_load_address : Nat
  boot_entry : Nat
  boot_checksum : Nat
  proc_type : List Nat
deriving DecidableEq

/-- `PartitionEntry::new()`. -/
def PartitionEntry.new : PartitionEntry :=
  { sig := 0x504d, partition_count := 0, start := 0, length := 0,
    name := [], ty := [], data_start := 0, data_count := 0, status := 0xb7,
    boot_start := 0, boot_size := 0, boot_load_address := 0, boot_entry := 0,
    boot_checksum := 0, proc_type := [] }

/-- `PartitionEntry::length()` (src/apm/src/lib.rs:220): the accessor first
runs `assert_eq!(self.data_count, self.length)`; a record violating the
mirror invariant makes it panic (`none`). -/
def PartitionEntry.lengthGetter (e : PartitionEntry) : Option Nat :=
  if e.data_count = e.length then some e.length else none

/-- Serialize one `DriverData` (deku derive, big-endian): start u32, size u16,
system_type u16. -/
def driverDataToBytes (d : DriverData) : List Nat :=
  u32be d.start ++ u16be d.size ++ u16be d.system_type

/-- Serialize a `DriverDescriptorBlock` (deku derive): magic `b"ER"`, then the
fields in declaration order, then the driver records.  The stored
`driver_count` field is written as-is; the whole `drivers` vector follows. -/
def driverDescToBytes (d : DriverDescriptorBlock) : List Nat :=
  0x45 :: 0x52 :: (u16be d.block_size ++ u32be d.blk_count ++ u16be d.dev_type ++
    u16be d.dev_id ++ u32be d.data ++ u16be d.driver_count ++
    (d.drivers.map driverDataToBytes).flatten)

/-- Parse `count` consecutive `DriverData` records. -/
def parseDrivers : Nat → List Nat → Option (List DriverData × List Nat)
  | 0, l => some ([], l)
  | n + 1, l => do
    let (s, l) ← parseU32 l
    let (sz, l) ← parseU16 l
    let (ty, l) ← parseU16 l
    let (rest, l) ← parseDrivers n l
    pure (⟨s, sz, ty⟩ :: rest, l)

/-- `DriverDescriptorBlock::from_bytes`: magic check `b"ER"`, the header
fields, then `driver_count` many driver records. -/
def parseDriverDesc (l : List Nat) : Option DriverDescriptorBlock := do
  let (m0, l) ← parseU16 l
  if m0 = 0x4552 then
    let (bs, l) ← parseU16 l
    let (bc, l) ← parseU32 l
    let (dt, l) ← parseU16 l
    let (di, l) ← parseU16 l
    let (da, l) ← parseU32 l
    let (dc, l) ← parseU16 l
    let (drs, _) ← parseDrivers dc l
    pure { block_size := bs, blk_count := bc, dev_type := dt, dev_id := di,
           data := da, driver_count := dc, drivers := drs }
  else
    none

/-- Serialize a `PartitionEntry` (deku derive, field order and the three
4/2-byte pads exactly as in the struct); the fixed-width labels go through
`write_string` (panic on overflow → `none`).  The deku field `assert` on
`sig` (`0x504d` or decimal `5453`) is checked on write as well. -/
def entryToBytes (e : PartitionEntry) : Option (List Nat) := do
  if e.sig = 0x504d ∨ e.sig = 5453 then
    let name32 ← writeStringN 32 e.name
    let ty32 ← writeStringN 32 e.ty
    let proc16 ← writeStringN 16 e.proc_type
    pure (u16be e.sig ++ [0, 0] ++ u32be e.partition_count ++ u32be e.start ++
      u32be e.length ++ name32 ++ ty32 ++ u32be e.data_start ++
      u32be e.data_count ++ u32be e.status ++ u32be e.boot_start ++
      u32be e.boot_size ++ u32be e.boot_load_address ++ [0, 0, 0, 0] ++
      u32be e.boot_entry ++ [0, 0, 0, 0] ++ u32be e.boot_checksum ++ proc16)
  else
    none

/-- `PartitionEntry::from_bytes`: the fields in order, with the deku
`assert = "*sig == 0x504d || *sig == 5453"` — note the source writes the
second magic as the *decimal* literal `5453` (= 0x154D), not `0x5453`. -/
def parseEntry (l : List Nat) : Option PartitionEntry :=
  match parseU16 l with
  | none => none
  | some (sig, l) =>
  if sig = 0x504d ∨ sig = 5453 then
    match skipN 2 l with
    | none => none
    | some l =>
    match parseU32 l with
    | none => none
    | some (cnt, l) =>
    match parseU32 l with
    | none => none
    | some (st, l) =>
    match parseU32 l with
    | none => none
    | some (len, l) =>
    match readStringN 32 l with
    | none => none
    | some (name, l) =>
    match readStringN 32 l with
    | none => none
    | some (ty, l) =>
    match parseU32 l with
    | none => none
    | some (ds, l) =>
    match parseU32 l with
    | none => none
    | some (dc, l) =>
    match parseU32 l with
    | none => none
    | some (status, l) =>
    match parseU32 l with
    | none => none
    | some (bst, l) =>
    match parseU32 l with
    | none => none
    | some (bsz, l) =>
    match parseU32 l with
    | none => none
    | some (bla, l) =>
    match skipN 4 l with
    | none => none
    | some l =>
    match parseU32 l with
    | none => none
    | some (be, l) =>
    match skipN 4 l with
    | none => none
    | some l =>
    match parseU32 l with
    | none => none
    | some (bck, l) =>
    match readStringN 16 l with
    | none => none
    | some (proc, _) =>
      some { sig := sig, partition_count := cnt, start := st, length := len,
             name := name, ty := ty, data_start := ds, data_count := dc,
             status := status, boot_start := bst, boot_size := bsz,
             boot_load_address := bla, boot_entry := be, boot_checksum := bck,
             proc_type := proc }
  else
    none

/-- The pure accumulation step of `apple_checksum`: 16-bit wrapping add of the
byte, then `rotate_left(1)` on 16 bits. -/
def checksumStep (r b : Nat) : Nat :=
  let s := (r + b) % 65536
  s * 2 % 65536 + s / 32768

/-- The checksum computation of `apple_checksum` (src/apm/src/lib.rs:264)
*without* the hard-coded assertion: fold `checksumStep` from 0, then
substitute `0xffff` for a zero result. -/
def appleChecksumCompute (data : List Nat) : Nat :=
  let r := data.foldl checksumStep 0
  if r = 0 then 0xffff else r

/-- `apple_checksum` as written in the source: after the computation it runs
`assert_eq!(ret, 0x885f)`, so the function panics (`none`) on every input
whose checksum is not `0x885f`. -/
def appleChecksum (data : List Nat) : Option Nat :=
  let r := appleChecksumCompute data
  if r = 0x885f then some r else none

/-- `ApmError` (src/apm/src/lib.rs:246); the deku error details are not
observable through any claim, so `Deku` is a single constructor. -/
inductive ApmError where
  | Deku : ApmError
  | NoSpace : ApmError
deriving DecidableEq

/-- `ApmMap` (src/apm/src/lib.rs:255). -/
structure ApmMap where
  update_driver_desc : Bool
  driver_desc : DriverDescriptorBlock
  update_partition_table : Bool
  partitions : List PartitionEntry
  raw_data : List Nat
deriving DecidableEq

/-- Outcome of a `&mut self` operation returning `Result<(), ApmError>`:
`ok` carries the mutated map, `err` carries the error and the map as the
early `?` return leaves it, `crash` is a Rust panic. -/
inductive MutResult where
  | ok : ApmMap → MutResult
  | err : ApmError → ApmMap → MutResult
  | crash : MutResult
deriving DecidableEq

/-- The bytes of the label `"Apple"`. -/
def appleNameBytes : List Nat := [0x41, 0x70, 0x70, 0x6C, 0x65]

/-- The bytes of the label `"Apple_partition_map"`. -/
def applePartMapBytes : List Nat :=
  [0x41, 0x70, 0x70, 0x6C, 0x65, 0x5F, 0x70, 0x61, 0x72, 0x74, 0x69, 0x74,
   0x69, 0x6F, 0x6E, 0x5F, 0x6D, 0x61, 0x70]

/-- The bytes of the free-space sentinel type `"Apple_Free"`. -/
def appleFreeBytes : List Nat :=
  [0x41, 0x70, 0x70, 0x6C, 0x65, 0x5F, 0x46, 0x72, 0x65, 0x65]

/-- `ApmMap::new(blocks)`: zero-filled buffer of `blocks*512` bytes plus the
seeded `"Apple"`/`"Apple_partition_map"` entry at block 1, length `0x3f`
(`with_length` sets both `length` and `data_count`). -/
def ApmMap.new (blocks : Nat) : ApmMap :=
  { update_driver_desc := true,
    driver_desc := { DriverDescriptorBlock.default with blk_count := blocks },
    update_partition_table := true,
    partitions := [{ PartitionEntry.new with
      start := 1, length := 0x3f, data_count := 0x3f, partition_count := 1,
      name := appleNameBytes, ty := applePartMapBytes }],
    raw_data := List.replicate (blocks * 512) 0 }

/-- `ApmMap::update_partition_count`: set every record's `partition_count`
to the table length (stored into a `u32`). -/
def updatePartitionCount (m : ApmMap) : ApmMap :=
  { m with partitions := m.partitions.map fun p =>
      { p with partition_count := m.partitions.length % 4294967296 } }

/-- `ApmMap::partitions_used` keeps the table entries whose type label is
not `"Apple_Free"`.  This is only the entry halves of the source's pairs:
the payload halves, and the panic their slicing can raise, are modelled by
`sliceOk` at the point the iterator is driven (`findHole`). -/
def partitionsUsed (m : ApmMap) : List PartitionEntry :=
  m.partitions.filter fun p => p.ty ≠ appleFreeBytes

/-- The bounds check of the payload slice
`&raw_data[(p.start*512) as usize..][..(p.length*512) as usize]` that
`ApmMap::partitions` (src/apm/src/lib.rs:391) takes for a table entry
(`u32` products): the slice is in range exactly when the start index plus
the requested length fits the buffer. -/
def sliceOk (len : Nat) (p : PartitionEntry) : Bool :=
  decide (p.start * 512 % 4294967296 + p.length * 512 % 4294967296 ≤ len)

/-- `ApmMap::find_hole` (src/apm/src/lib.rs:354): `hole` starts at 1 and is
overwritten by `start + length` of *each* used entry in table order (u32
addition), so it ends at the last used entry's end. -/
def allocCandidate (m : ApmMap) : Nat :=
  (partitionsUsed m).foldl (fun _ p => (p.start + p.length) % 4294967296) 1

/-- `ApmMap::find_hole`: the `for` loop drives `partitions_used()`, whose
lazy `map` (from `ApmMap::partitions`) slices the payload of *every* table
entry before the filter tests its type, so when any entry's extent lies
outside the buffer the iteration panics (`none`) before the capacity check
is ever reached.  Otherwise the check compares the final `hole`
(`allocCandidate`) plus `size` (u32) with `raw_data.len() as u32 / 512`. -/
def findHole (m : ApmMap) (size : Nat) : Option (Except ApmError Nat) :=
  if m.partitions.all (sliceOk m.raw_data.length) then
    some (if (allocCandidate m + size) % 4294967296 >
        m.raw_data.length % 4294967296 / 512 then
      .error .NoSpace
    else
      .ok (allocCandidate m))
  else
    none

/-- Splice `bytes` into `buf` at byte offset `off` (`copy_from_slice`). -/
def writeBytes (buf : List Nat) (off : Nat) (bytes : List Nat) : List Nat :=
  buf.take off ++ bytes ++ buf.drop (off + bytes.length)

/-- `ApmMap::push_partition` (src/apm/src/lib.rs:303): round the payload up
to whole 512-byte blocks, ask `find_hole` for a start (early `?` return on
`NoSpace`), append the record (`with_length` mirrors `data_count`), copy the
payload at `(start*512) as usize` (u32 product; the slice indexing panics if
out of bounds), recompute the partition counts, mark the table dirty. -/
def pushPartition (m : ApmMap) (name ty data : List Nat) : MutResult :=
  let size := (data.length + 0x1ff) / 512
  match findHole m (size % 4294967296) with
  | none => .crash
  | some (.error e) => .err e m
  | some (.ok start) =>
    let entry := { PartitionEntry.new with
      start := start, length := size % 4294967296,
      data_count := size % 4294967296, name := name, ty := ty }
    if start * 512 % 4294967296 + data.length ≤ m.raw_data.length then
      let m1 := { m with partitions := m.partitions ++ [entry],
                         raw_data := writeBytes m.raw_data
                           (start * 512 % 4294967296) data }
      .ok { updatePartitionCount m1 with update_partition_table := true }
    else
      .crash

/-- `ApmMap::push_partition_at` (src/apm/src/lib.rs:320): like
`push_partition` but at a caller-chosen start, with the fixed boot-code
metadata `with_checksum(0xf624)` and `with_boot_code_size(9392)` and a
processor-type label; the debug `println!` calls `apple_checksum(data)`,
which panics unless the checksum is `0x885f`. -/
def pushPartitionAt (m : ApmMap) (name ty proc data : List Nat)
    (start : Nat) : MutResult :=
  let size := (data.length + 0x1ff) / 512
  let entry := { PartitionEntry.new with
    start := start, length := size % 4294967296,
    data_count := size % 4294967296, name := name, ty := ty,
    boot_checksum := 0xf624, boot_size := 9392, proc_type := proc }
  match appleChecksum data with
  | none => .crash
  | some _ =>
    if start * 512 % 4294967296 + data.length ≤ m.raw_data.length then
      let m1 := { m with partitions := m.partitions ++ [entry],
                         raw_data := writeBytes m.raw_data
                           (start * 512 % 4294967296) data }
      .ok { updatePartitionCount m1 with update_partition_table := true }
    else
      .crash

/-- `DriverDescriptorBlock::push_driver_data`: append and bump the stored
count (u16). -/
def pushDriverData (d : DriverDescriptorBlock) (dd : DriverData) :
    DriverDescriptorBlock :=
  { d with drivers := d.drivers ++ [dd],
           driver_count := (d.driver_count + 1) % 65536 }

/-- `ApmMap::push_driver` (src/apm/src/lib.rs:346): same allocation flow as
`push_partition`; the record goes to the descriptor block's driver list
(`size as u16`), and only the descriptor-dirty flag is set. -/
def pushDriver (m : ApmMap) (ty : Nat) (data : List Nat) : MutResult :=
  let size := (data.length + 0x1ff) / 512
  match findHole m (size % 4294967296) with
  | none => .crash
  | some (.error e) => .err e m
  | some (.ok start) =>
    if start * 512 % 4294967296 + data.length ≤ m.raw_data.length then
      .ok { m with
        driver_desc := pushDriverData m.driver_desc
          ⟨start, size % 65536, ty⟩,
        raw_data := writeBytes m.raw_data (start * 512 % 4294967296) data,
        update_driver_desc := true }
    else
      .crash

/-- The 512-byte chunk of `data` at chunk index `i` (`data.chunks(512)`);
the final chunk may be shorter. -/
def getBlock (data : List Nat) (i : Nat) : List Nat :=
  (data.drop (512 * i)).take 512

/-- How many chunks `data.chunks(512)` yields. -/
def numBlocks (data : List Nat) : Nat :=
  (data.length + 511) / 512

/-- The partition-record loop of `ApmMap::decode` (src/apm/src/lib.rs:403):
parse successive chunks from index `i` on; after pushing a record, stop when
the chunk index equals *that record's own* `partition_count`; otherwise
continue until the chunks run out.  A parse failure aborts the whole decode. -/
def decodeEntries (data : List Nat) (i : Nat) :
    Except ApmError (List PartitionEntry) :=
  if _h : i < numBlocks data then
    match parseEntry (getBlock data i) with
    | none => .error .Deku
    | some e =>
      if i = e.partition_count then
        .ok [e]
      else
        match decodeEntries data (i + 1) with
        | .error er => .error er
        | .ok rest => .ok (e :: rest)
  else
    .ok []
termination_by numBlocks data - i

/-- `ApmMap::decode` (src/apm/src/lib.rs:398): block 0 is the descriptor
block, then the record loop from block 1; both dirty flags start `false` and
the input becomes the raw buffer.  `iter.next().unwrap()` panics on empty
input (`none`). -/
def decode (data : List Nat) : Option (Except ApmError ApmMap) :=
  if data.length = 0 then
    none
  else
    some (match parseDriverDesc (getBlock data 0) with
      | none => .error .Deku
      | some dd =>
        match decodeEntries data 1 with
        | .error e => .error e
        | .ok ps =>
          .ok { update_driver_desc := false, driver_desc := dd,
                update_partition_table := false, partitions := ps,
                raw_data := data })

/-- The partition-table serialization loop of `ApmMap::encode`: record `i`
goes to byte offset `512 + i*512`; slicing panics (`none`) when it does not
fit, and `to_bytes` panics inside `write_string` on an over-long label. -/
def writeEntries (raw : List Nat) :
    List PartitionEntry → Nat → Option (List Nat)
  | [], _ => some raw
  | p :: rest, i =>
    match entryToBytes p with
    | none => none
    | some bytes =>
      if 512 + i * 512 + bytes.length ≤ raw.length then
        writeEntries (writeBytes raw (512 + i * 512) bytes) rest (i + 1)
      else
        none

/-- `ApmMap::encode` (src/apm/src/lib.rs:420): if the descriptor flag is set,
serialize the descriptor block into `raw_data[..512]` (slicing panics when
it does not fit); if the table flag is set, recompute the partition counts
and serialize every record; the dirty flags are not cleared.  The returned
`&[u8]` is the updated map's `raw_data`. -/
def encodeM (m : ApmMap) : Option ApmMap :=
  let step1 : Option ApmMap :=
    if m.update_driver_desc then
      let b0 := driverDescToBytes m.driver_desc
      if 512 ≤ m.raw_data.length ∧ b0.length ≤ 512 then
        some { m with raw_data := writeBytes m.raw_data 0 b0 }
      else
        none
    else
      some m
  match step1 with
  | none => none
  | some m1 =>
    if m1.update_partition_table then
      let m2 := updatePartitionCount m1
      match writeEntries m2.raw_data m2.partitions 0 with
      | none => none
      | some raw2 => some { m2 with raw_data := raw2 }
    else
      some m1

/-! ### Round-trip lemmas for the primitive codecs -/

theorem parseU16_u16be (v : Nat) (h : v < 65536) (r : List Nat) :
    parseU16 (u16be v ++ r) = some (v, r) := by
  simp only [u16be, List.cons_append, List.nil_append, parseU16]
  congr 2
  omega

theorem parseU32_u32be (v : Nat) (h : v < 4294967296) (r : List Nat) :
    parseU32 (u32be v ++ r) = some (v, r) := by
  simp only [u32be, List.cons_append, List.nil_append, parseU32]
  congr 2
  omega

theorem parseU32_u32be_mod (v : Nat) (r : List Nat) :
    parseU32 (u32be v ++ r) = some (v % 4294967296, r) := by
  simp only [u32be, List.cons_append, List.nil_append, parseU32]
  congr 2
  omega

theorem skipN_append (n : Nat) (l : List Nat) (h : l.length = n)
    (r : List Nat) : skipN n (l ++ r) = some r := by
  simp [skipN, List.drop_left' h, h]

/-- A label fit for round-tripping: it fits its slot and no byte is zero or
out of byte range. -/
def labelWF (cap : Nat) (s : List Nat) : Prop :=
  s.length ≤ cap ∧ ∀ c ∈ s, c ≠ 0 ∧ c < 256

instance (cap : Nat) (s : List Nat) : Decidable (labelWF cap s) := by
  unfold labelWF
  infer_instance



theorem readStringN_writeStringN (cap : Nat) (s : List Nat)
    (hwf : labelWF cap s) (w : List Nat) (hw : writeStringN cap s = some w)
    (r : List Nat) : readStringN cap (w ++ r) = some (s, r) := by
  obtain ⟨hlen, hbytes⟩ := hwf
  have hmap : s.map (· % 256) = s := by
    have := List.map_congr_left (l := s) (f := (· % 256)) (g := id)
      (fun a ha => Nat.mod_eq_of_lt (hbytes a ha).2)
    simpa using this
  have hw' : w = s ++ List.replicate (cap - s.length) 0 := by
    have := hw
    rw [writeStringN, if_pos hlen, hmap] at this
    exact (Option.some_inj.mp this).symm
  subst hw'
  have hwlen : (s ++ List.replicate (cap - s.length) 0).length = cap := by
    simp
    omega
  have htw : ((s ++ List.replicate (cap - s.length) 0).takeWhile
      (fun c => decide (c ≠ 0))) = s := by
    rw [List.takeWhile_append_of_pos (by intro a ha; simpa using (hbytes a ha).1)]
    rw [List.takeWhile_replicate]
    simp
  rw [readStringN, if_pos (by simp; omega)]
  rw [List.take_left' hwlen, List.drop_left' hwlen]
  rw [htw]

/-! ### Block-level decode lemmas -/

theorem length_writeBytes (buf : List Nat) (off : Nat) (bytes : List Nat)
    (h : off + bytes.length ≤ buf.length) :
    (writeBytes buf off bytes).length = buf.length := by
  simp [writeBytes]
  omega

theorem getBlock_append_zero (b rest : List Nat) (hb : b.length = 512) :
    getBlock (b ++ rest) 0 = b := by
  simp only [getBlock, Nat.mul_zero, List.drop_zero]
  exact List.take_left' hb

theorem getBlock_append_succ (b rest : List Nat) (hb : b.length = 512) (i : Nat) :
    getBlock (b ++ rest) (i + 1) = getBlock rest i := by
  simp only [getBlock]
  congr 1
  have : 512 * (i + 1) = b.length + 512 * i := by omega
  rw [this, List.drop_append]

theorem decodeEntries_stop (data : List Nat) (i : Nat) (e : PartitionEntry)
    (hlt : i < numBlocks data) (hp : parseEntry (getBlock data i) = some e)
    (hc : i = e.partition_count) :
    decodeEntries data i = .ok [e] := by
  rw [decodeEntries, dif_pos hlt, hp]
  simp [hc]

theorem decodeEntries_cont (data : List Nat) (i : Nat) (e : PartitionEntry)
    (rest : List PartitionEntry)
    (hlt : i < numBlocks data) (hp : parseEntry (getBlock data i) = some e)
    (hc : i ≠ e.partition_count)
    (hrec : decodeEntries data (i + 1) = .ok rest) :
    decodeEntries data i = .ok (e :: rest) := by
  rw [decodeEntries, dif_pos hlt, hp]
  simp [hc, hrec]

theorem decode_ok (data : List Nat) (dd : DriverDescriptorBlock)
    (ps : List PartitionEntry)
    (hne : data.length ≠ 0)
    (hdd : parseDriverDesc (getBlock data 0) = some dd)
    (hps : decodeEntries data 1 = .ok ps) :
    decode data = some (.ok
      { update_driver_desc := false, driver_desc := dd,
        update_partition_table := false, partitions := ps,
        raw_data := data }) := by
  rw [decode]
  simp [hne, hdd, hps]

/-- The core of C6: when the records at chunk indices `j, j+1, ...` all carry
`partition_count = n` and the run ends exactly at index `n`, the loop
collects exactly those records. -/
theorem decodeEntries_run (data : List Nat) (n : Nat) :
    ∀ (es : List PartitionEntry) (j : Nat), es ≠ [] → j + es.length = n + 1 →
    (∀ k (hk : k < es.length),
      parseEntry (getBlock data (j + k)) = some (es.get ⟨k, hk⟩)) →
    (∀ e ∈ es, e.partition_count = n) →
    512 * n + 136 ≤ data.length →
    decodeEntries data j = .ok es := by
  intro es
  induction es with
  | nil => intro j h; exact absurd rfl h
  | cons e tail ih =>
    intro j _ hlen hparse hcount hdata
    have hjn : j + tail.length = n := by
      have := hlen
      simp at this
      omega
    have hje : parseEntry (getBlock data j) = some e := by
      have := hparse 0 (by simp)
      simpa using this
    have hcnt : e.partition_count = n := hcount e (by simp)
    have hlt : j < numBlocks data := by
      have h1 : j ≤ n := by omega
      have h2 : 512 * j < data.length := by
        calc 512 * j ≤ 512 * n := by omega
        _ < data.length := by omega
      simp only [numBlocks]
      omega
    cases tail with
    | nil =>
      have hj : j = n := by simpa using hjn
      exact decodeEntries_stop data j e hlt hje (by omega)
    | cons e2 tail2 =>
      have hjne : j ≠ e.partition_count := by
        simp at hjn
        omega
      refine decodeEntries_cont data j e _ hlt hje hjne ?_
      refine ih (j + 1) (by simp) (by have := hlen; simp at this ⊢; omega) ?_ ?_ hdata
      · intro k hk
        have := hparse (k + 1) (by simpa using Nat.succ_lt_succ hk)
        have harith : j + (k + 1) = j + 1 + k := by omega
        rw [harith] at this
        simpa using this
      · intro x hx
        exact hcount x (by simp [hx])

/-! ### Serializer/parser round-trip lemmas -/

/-- A `PartitionEntry` as it comes back from parsing its own serialization:
every 32-bit field reduced to its stored width. -/
def normEntry (e : PartitionEntry) : PartitionEntry :=
  { sig := e.sig, partition_count := e.partition_count % 4294967296,
    start := e.start % 4294967296, length := e.length % 4294967296,
    name := e.name, ty := e.ty,
    data_start := e.data_start % 4294967296,
    data_count := e.data_count % 4294967296,
    status := e.status % 4294967296,
    boot_start := e.boot_start % 4294967296,
    boot_size := e.boot_size % 4294967296,
    boot_load_address := e.boot_load_address % 4294967296,
    boot_entry := e.boot_entry % 4294967296,
    boot_checksum := e.boot_checksum % 4294967296,
    proc_type := e.proc_type }

theorem skipN_two (a b : Nat) (r : List Nat) : skipN 2 (a :: b :: r) = some r := by
  simp [skipN]

theorem skipN_four (a b c d : Nat) (r : List Nat) :
    skipN 4 (a :: b :: c :: d :: r) = some r := by
  simp [skipN]

theorem readStringN_writeParts (cap : Nat) (s : List Nat) (hwf : labelWF cap s)
    (r : List Nat) :
    readStringN cap (s.map (· % 256) ++ (List.replicate (cap - s.length) 0 ++ r)) =
      some (s, r) := by
  have := readStringN_writeStringN cap s hwf _ (by rw [writeStringN, if_pos hwf.1]) r
  simpa [List.append_assoc] using this

theorem parseEntry_entryToBytes (e : PartitionEntry) (w : List Nat)
    (hw : entryToBytes e = some w)
    (hname : labelWF 32 e.name) (hty : labelWF 32 e.ty)
    (hproc : labelWF 16 e.proc_type) (r : List Nat) :
    parseEntry (w ++ r) = some (normEntry e) := by
  have hsig : e.sig = 0x504d ∨ e.sig = 5453 := by
    by_contra hn
    rw [entryToBytes] at hw
    simp [hn] at hw
  have hsg : e.sig < 65536 := by rcases hsig with h | h <;> omega
  have hn : writeStringN 32 e.name =
      some (e.name.map (· % 256) ++ List.replicate (32 - e.name.length) 0) := by
    rw [writeStringN, if_pos hname.1]
  have ht : writeStringN 32 e.ty =
      some (e.ty.map (· % 256) ++ List.replicate (32 - e.ty.length) 0) := by
    rw [writeStringN, if_pos hty.1]
  have hp : writeStringN 16 e.proc_type =
      some (e.proc_type.map (· % 256) ++ List.replicate (16 - e.proc_type.length) 0) := by
    rw [writeStringN, if_pos hproc.1]
  rw [entryToBytes] at hw
  simp only [if_pos hsig, hn, ht, hp, Option.bind_eq_bind, Option.some_bind,
    Option.pure_def, Option.some_inj] at hw
  subst hw
  simp only [List.append_assoc, List.cons_append, List.nil_append]
  simp only [parseEntry, parseU16_u16be e.sig hsg, if_pos hsig, skipN_two,
    skipN_four, parseU32_u32be_mod,
    readStringN_writeParts 32 e.name hname,
    readStringN_writeParts 32 e.ty hty,
    readStringN_writeParts 16 e.proc_type hproc]
  rfl

theorem parseU16_u16be_mod (v : Nat) (r : List Nat) :
    parseU16 (u16be v ++ r) = some (v % 65536, r) := by
  simp only [u16be, List.cons_append, List.nil_append, parseU16]
  congr 2
  omega

/-- A `DriverData` as parsed back from its own serialization. -/
def normDriver (d : DriverData) : DriverData :=
  ⟨d.start % 4294967296, d.size % 65536, d.system_type % 65536⟩

/-- A `DriverDescriptorBlock` as parsed back from its own serialization. -/
def normDesc (d : DriverDescriptorBlock) : DriverDescriptorBlock :=
  { block_size := d.block_size % 65536, blk_count := d.blk_count % 4294967296,
    dev_type := d.dev_type % 65536, dev_id := d.dev_id % 65536,
    data := d.data % 4294967296, driver_count := d.driver_count % 65536,
    drivers := d.drivers.map normDriver }

theorem parseDrivers_flat (ds : List DriverData) (r : List Nat) :
    parseDrivers ds.length ((ds.map driverDataToBytes).flatten ++ r) =
      some (ds.map normDriver, r) := by
  induction ds with
  | nil => simp [parseDrivers]
  | cons d tail ih =>
    simp only [List.map_cons, List.flatten_cons, List.append_assoc,
      driverDataToBytes, List.length_cons, parseDrivers,
      parseU32_u32be_mod, parseU16_u16be_mod, ih,
      Option.bind_eq_bind, Option.some_bind, Option.pure_def]
    rfl

theorem parseDriverDesc_toBytes (d : DriverDescriptorBlock)
    (hcnt : d.driver_count = d.drivers.length) (hdc : d.driver_count < 65536)
    (r : List Nat) :
    parseDriverDesc (driverDescToBytes d ++ r) = some (normDesc d) := by
  have hmagic : ∀ X : List Nat, parseU16 (0x45 :: 0x52 :: X) = some (0x4552, X) :=
    fun X => rfl
  have hdcm : d.driver_count % 65536 = d.drivers.length := by omega
  simp only [driverDescToBytes, List.cons_append, List.append_assoc]
  simp only [parseDriverDesc, hmagic, parseU16_u16be_mod, parseU32_u32be_mod,
    Option.bind_eq_bind, Option.some_bind, Option.pure_def, hdcm,
    parseDrivers_flat, if_true, reduceIte]
  simp [normDesc, hdcm]

/-! ### Encode-side buffer lemmas -/

theorem getBlock_writeBytes_above (buf : List Nat) (off : Nat) (bytes : List Nat)
    (j : Nat) (h : 512 * (j + 1) ≤ off) (hfit : off + bytes.length ≤ buf.length) :
    getBlock (writeBytes buf off bytes) j = getBlock buf j := by
  have hoff : off ≤ buf.length := by omega
  have htl : (buf.take off).length = off := List.length_take_of_le hoff
  simp only [getBlock, writeBytes]
  rw [List.append_assoc, List.drop_append_of_le_length (by omega),
    List.take_append_of_le_length (by simp [htl]; omega)]
  rw [List.drop_take, List.take_take]
  have hmin : min 512 (off - 512 * j) = 512 := by omega
  rw [hmin]

theorem getBlock_writeBytes_at (buf : List Nat) (j : Nat) (bytes : List Nat)
    (hlen : bytes.length ≤ 512) (hfit : 512 * j + bytes.length ≤ buf.length) :
    getBlock (writeBytes buf (512 * j) bytes) j =
      bytes ++ (getBlock buf j).drop bytes.length := by
  have hj : 512 * j ≤ buf.length := by omega
  simp only [getBlock, writeBytes]
  rw [List.append_assoc, List.drop_left' (List.length_take_of_le hj)]
  rw [List.take_append_eq_append_take]
  congr 1
  · exact List.take_of_length_le (by omega)
  · rw [List.drop_take, List.drop_drop]

theorem getBlock_writeBytes_below (buf : List Nat) (off : Nat) (bytes : List Nat)
    (j : Nat) (h : off + bytes.length ≤ 512 * j)
    (hfit : off + bytes.length ≤ buf.length) :
    getBlock (writeBytes buf off bytes) j = getBlock buf j := by
  have hoff : off ≤ buf.length := by omega
  have htl : (buf.take off).length = off := List.length_take_of_le hoff
  simp only [getBlock, writeBytes]
  congr 1
  rw [List.append_assoc, List.drop_append_eq_append_drop,
    List.drop_append_eq_append_drop]
  have h1 : (buf.take off).drop (512 * j) = [] := by
    apply List.drop_eq_nil_of_le
    omega
  have h2 : bytes.drop (512 * j - (buf.take off).length) = [] := by
    apply List.drop_eq_nil_of_le
    omega
  rw [h1, h2, List.drop_drop]
  simp only [List.nil_append]
  congr 1
  omega

theorem writeStringN_length (cap : Nat) (s w : List Nat)
    (h : writeStringN cap s = some w) : w.length = cap := by
  rw [writeStringN] at h
  by_cases hc : s.length ≤ cap
  · rw [if_pos hc] at h
    obtain rfl := Option.some_inj.mp h.symm
    simp
    omega
  · rw [if_neg hc] at h
    exact absurd h (by simp)

theorem entryToBytes_length (e : PartitionEntry) (b : List Nat)
    (h : entryToBytes e = some b) : b.length = 136 := by
  rw [entryToBytes] at h
  by_cases hsig : e.sig = 0x504d ∨ e.sig = 5453
  · rw [if_pos hsig] at h
    cases hn : writeStringN 32 e.name with
    | none => rw [hn] at h; exact absurd h (by simp)
    | some wn =>
      cases ht : writeStringN 32 e.ty with
      | none => rw [hn, ht] at h; exact absurd h (by simp)
      | some wt =>
        cases hp : writeStringN 16 e.proc_type with
        | none => rw [hn, ht, hp] at h; exact absurd h (by simp)
        | some wp =>
          rw [hn, ht, hp] at h
          simp only [Option.bind_eq_bind, Option.some_bind, Option.pure_def,
            Option.some_inj] at h
          subst h
          simp [u16be, u32be, writeStringN_length 32 e.name wn hn,
            writeStringN_length 32 e.ty wt ht,
            writeStringN_length 16 e.proc_type wp hp]
  · rw [if_neg hsig] at h
    exact absurd h (by simp)

theorem writeEntries_length (ps : List PartitionEntry) :
    ∀ (raw : List Nat) (i : Nat) (raw' : List Nat),
      writeEntries raw ps i = some raw' → raw'.length = raw.length := by
  induction ps with
  | nil =>
    intro raw i raw' h
    rw [writeEntries] at h
    obtain rfl := Option.some_inj.mp h
    rfl
  | cons p tail ih =>
    intro raw i raw' h
    rw [writeEntries] at h
    cases hb : entryToBytes p with
    | none => simp only [hb] at h; exact absurd h (by simp)
    | some bytes =>
      simp only [hb] at h
      by_cases hg : 512 + i * 512 + bytes.length ≤ raw.length
      · rw [if_pos hg] at h
        have := ih _ _ _ h
        rw [this, length_writeBytes _ _ _ (by omega)]
      · rw [if_neg hg] at h
        exact absurd h (by simp)

theorem writeEntries_getBlock_le (ps : List PartitionEntry) :
    ∀ (raw : List Nat) (i : Nat) (raw' : List Nat) (j : Nat),
      writeEntries raw ps i = some raw' → j ≤ i →
      getBlock raw' j = getBlock raw j := by
  induction ps with
  | nil =>
    intro raw i raw' j h _
    rw [writeEntries] at h
    obtain rfl := Option.some_inj.mp h
    rfl
  | cons p tail ih =>
    intro raw i raw' j h hj
    rw [writeEntries] at h
    cases hb : entryToBytes p with
    | none => simp only [hb] at h; exact absurd h (by simp)
    | some bytes =>
      simp only [hb] at h
      by_cases hg : 512 + i * 512 + bytes.length ≤ raw.length
      · rw [if_pos hg] at h
        rw [ih _ _ _ j h (by omega)]
        exact getBlock_writeBytes_above raw (512 + i * 512) bytes j
          (by omega) (by omega)
      · rw [if_neg hg] at h
        exact absurd h (by simp)

theorem writeEntries_getBlock_at (ps : List PartitionEntry) :
    ∀ (raw : List Nat) (i : Nat) (raw' : List Nat),
      writeEntries raw ps i = some raw' →
      ∀ k (hk : k < ps.length), ∃ bytes,
        entryToBytes (ps.get ⟨k, hk⟩) = some bytes ∧
        getBlock raw' (i + 1 + k) =
          bytes ++ (getBlock raw (i + 1 + k)).drop bytes.length := by
  induction ps with
  | nil => intro raw i raw' _ k hk; exact absurd hk (by simp)
  | cons p tail ih =>
    intro raw i raw' h k hk
    rw [writeEntries] at h
    cases hb : entryToBytes p with
    | none => simp only [hb] at h; exact absurd h (by simp)
    | some bytes =>
      simp only [hb] at h
      by_cases hg : 512 + i * 512 + bytes.length ≤ raw.length
      · rw [if_pos hg] at h
        have hblen : bytes.length = 136 := entryToBytes_length p bytes hb
        cases k with
        | zero =>
          refine ⟨bytes, hb, ?_⟩
          rw [writeEntries_getBlock_le tail _ _ _ (i + 1) h (by omega)]
          have hoff : 512 + i * 512 = 512 * (i + 1) := by omega
          rw [hoff] at hg ⊢
          simp only [Nat.add_zero]
          exact getBlock_writeBytes_at raw (i + 1) bytes (by omega) (by omega)
        | succ k2 =>
          have hk2 : k2 < tail.length := by simpa using hk
          obtain ⟨bytes2, hb2, hgb⟩ := ih _ (i + 1) _ h k2 hk2
          refine ⟨bytes2, by simpa using hb2, ?_⟩
          have harith : i + 1 + (k2 + 1) = i + 1 + 1 + k2 := by omega
          rw [harith, hgb]
          congr 2
          exact getBlock_writeBytes_below raw (512 + i * 512) bytes
            (i + 1 + 1 + k2) (by omega) (by omega)
      · rw [if_neg hg] at h
        exact absurd h (by simp)

theorem writeEntries_bound (ps : List PartitionEntry) :
    ∀ (raw : List Nat) (i : Nat) (raw' : List Nat),
      writeEntries raw ps i = some raw' → ps ≠ [] →
      512 * (i + ps.length) + 136 ≤ raw.length := by
  induction ps with
  | nil => intro _ _ _ _ h; exact absurd rfl h
  | cons p tail ih =>
    intro raw i raw' h _
    rw [writeEntries] at h
    cases hb : entryToBytes p with
    | none => simp only [hb] at h; exact absurd h (by simp)
    | some bytes =>
      simp only [hb] at h
      by_cases hg : 512 + i * 512 + bytes.length ≤ raw.length
      · rw [if_pos hg] at h
        have hblen : bytes.length = 136 := entryToBytes_length p bytes hb
        cases tail with
        | nil => simp; omega
        | cons q t2 =>
          have := ih _ (i + 1) _ h (by simp)
          have htail_len := writeEntries_length (q :: t2) _ (i + 1) _ h
          have hw : (writeBytes raw (512 + i * 512) bytes).length = raw.length :=
            length_writeBytes _ _ _ (by omega)
          rw [hw] at this
          simp at this ⊢
          omega
      · rw [if_neg hg] at h
        exact absurd h (by simp)

/-! ### C9: encode/decode round trip -/

/-- A partition record whose encode survives a byte-level round trip:
valid signature, well-formed labels, and extent fields within `u32`. -/
def EntryWF (e : PartitionEntry) : Prop :=
  (e.sig = 0x504d ∨ e.sig = 5453) ∧ labelWF 32 e.name ∧ labelWF 32 e.ty ∧
  labelWF 16 e.proc_type ∧ e.start < 4294967296 ∧ e.length < 4294967296

instance (e : PartitionEntry) : Decidable (EntryWF e) := by
  unfold EntryWF
  infer_instance

/-- A device image in the state every image built through the public API is
in: the stored driver count matches the list, driver fields are within their
stored widths, every partition record is `EntryWF`, and the table is
non-empty with a `u32`-sized length. -/
def MapWF (m : ApmMap) : Prop :=
  m.driver_desc.driver_count = m.driver_desc.drivers.length ∧
  m.driver_desc.driver_count < 65536 ∧
  (∀ dr ∈ m.driver_desc.drivers,
    dr.start < 4294967296 ∧ dr.size < 65536 ∧ dr.system_type < 65536) ∧
  (∀ e ∈ m.partitions, EntryWF e) ∧
  m.partitions ≠ [] ∧ m.partitions.length < 4294967296

instance (m : ApmMap) : Decidable (MapWF m) := by
  unfold MapWF
  infer_instance

theorem decodeEntries_of_writeEntries (raw1 : List Nat)
    (ps : List PartitionEntry) (raw2 : List Nat)
    (hwe : writeEntries raw1 ps 0 = some raw2)
    (hlbl : ∀ p ∈ ps, labelWF 32 p.name ∧ labelWF 32 p.ty ∧
      labelWF 16 p.proc_type)
    (hcnt : ∀ p ∈ ps, p.partition_count % 4294967296 = ps.length)
    (hne : ps ≠ []) :
    decodeEntries raw2 1 = .ok (ps.map normEntry) := by
  have hraw2len : raw2.length = raw1.length := writeEntries_length ps _ 0 raw2 hwe
  have hbound : 512 * ps.length + 136 ≤ raw2.length := by
    have := writeEntries_bound ps _ 0 raw2 hwe hne
    omega
  apply decodeEntries_run raw2 ps.length (ps.map normEntry) 1
  · simpa using hne
  · simp only [List.length_map]
    omega
  · intro k hk
    have hk' : k < ps.length := by simpa using hk
    obtain ⟨bytes, hbys, hgb⟩ := writeEntries_getBlock_at ps _ 0 raw2 hwe k hk'
    have hmem : ps.get ⟨k, hk'⟩ ∈ ps := List.get_mem ps k hk'
    obtain ⟨hl1, hl2, hl3⟩ := hlbl _ hmem
    have harith : (0 : Nat) + 1 + k = 1 + k := by omega
    rw [harith] at hgb
    rw [hgb, parseEntry_entryToBytes _ _ hbys hl1 hl2 hl3]
    congr 1
    simp
  · intro e hel
    obtain ⟨p, hpm, hpe⟩ := List.mem_map.mp hel
    rw [← hpe]
    show (normEntry p).partition_count = ps.length
    rw [normEntry]
    exact hcnt p hpm
  · exact hbound

/-- C9: for every well-formed device image with both regions marked dirty,
decoding the bytes produced by `encode` succeeds and yields a device image
whose partition records have identical start, length, name, and type fields
to the original's, and whose driver records are identical to the
original's. -/
theorem C9_encode_decode_roundtrip (m m' : ApmMap) (hwf : MapWF m)
    (hd : m.update_driver_desc = true) (hp : m.update_partition_table = true)
    (he : encodeM m = some m') :
    ∃ m2, decode m'.raw_data = some (.ok m2) ∧
      m2.partitions.map (fun e => (e.start, e.length, e.name, e.ty)) =
        m.partitions.map (fun e => (e.start, e.length, e.name, e.ty)) ∧
      m2.driver_desc.drivers = m.driver_desc.drivers := by
  obtain ⟨hcnt, hdc, hdrs, hents, hpne, hnlt⟩ := hwf
  rw [encodeM] at he
  simp only [hd, if_true] at he
  by_cases hg1 : 512 ≤ m.raw_data.length ∧
      (driverDescToBytes m.driver_desc).length ≤ 512
  swap
  · rw [if_neg hg1] at he
    exact absurd he (by simp)
  rw [if_pos hg1] at he
  simp only [hp, updatePartitionCount, if_true] at he
  cases hwe : writeEntries (writeBytes m.raw_data 0 (driverDescToBytes m.driver_desc))
      (m.partitions.map (fun p =>
        { p with partition_count := m.partitions.length % 4294967296 })) 0 with
  | none =>
    rw [hwe] at he
    exact absurd he (by simp)
  | some raw2 =>
    rw [hwe] at he
    simp only [Option.some_inj] at he
    subst he
    simp only
    -- lengths
    have hb0fit : 0 + (driverDescToBytes m.driver_desc).length ≤ m.raw_data.length := by
      omega
    have hm1len : (writeBytes m.raw_data 0 (driverDescToBytes m.driver_desc)).length =
        m.raw_data.length := length_writeBytes _ _ _ hb0fit
    have hraw2len : raw2.length = m.raw_data.length := by
      rw [writeEntries_length _ _ 0 raw2 hwe, hm1len]
    -- block 0 parses back to the descriptor block
    have hblk0 : getBlock raw2 0 = driverDescToBytes m.driver_desc ++
        (getBlock m.raw_data 0).drop (driverDescToBytes m.driver_desc).length := by
      rw [writeEntries_getBlock_le _ _ 0 raw2 0 hwe (Nat.le_refl 0)]
      have := getBlock_writeBytes_at m.raw_data 0 (driverDescToBytes m.driver_desc)
        (by omega) (by simpa using hb0fit)
      simpa using this
    have hdesc : parseDriverDesc (getBlock raw2 0) = some (normDesc m.driver_desc) := by
      rw [hblk0]
      exact parseDriverDesc_toBytes m.driver_desc hcnt hdc _
    -- the partition table parses back
    have hdecent := decodeEntries_of_writeEntries _ _ raw2 hwe
      (by
        intro p hpm
        obtain ⟨q, hq, hqe⟩ := List.mem_map.mp hpm
        have := hents q hq
        rw [← hqe]
        exact ⟨this.2.1, this.2.2.1, this.2.2.2.1⟩)
      (by
        intro p hpm
        obtain ⟨q, hq, hqe⟩ := List.mem_map.mp hpm
        rw [← hqe]
        simp
        omega)
      (by simpa using hpne)
    have hdec := decode_ok raw2 (normDesc m.driver_desc) _ (by omega) hdesc hdecent
    refine ⟨_, hdec, ?_, ?_⟩
    · -- start/length/name/type round-trip
      simp only [List.map_map]
      apply List.map_congr_left
      intro e hem
      have hewf := hents e hem
      simp only [Function.comp, normEntry]
      simp [Nat.mod_eq_of_lt hewf.2.2.2.2.1, Nat.mod_eq_of_lt hewf.2.2.2.2.2]
    · -- drivers round-trip
      simp only [normDesc]
      have hid : m.driver_desc.drivers.map normDriver = m.driver_desc.drivers := by
        have := List.map_congr_left (l := m.driver_desc.drivers)
          (f := normDriver) (g := id) (by
            intro d hd2
            obtain ⟨h1, h2, h3⟩ := hdrs d hd2
            cases d
            simp_all [normDriver, Nat.mod_eq_of_lt])
        simpa using this
      simp [hid]

/-- Witness for C9: a concrete 650-byte, one-partition image round-trips. -/
theorem C9_wit :
    ∃ m' m2,
      encodeM ⟨true, ⟨512, 2, 1, 1, 0, 0, []⟩, true, [PartitionEntry.new],
        List.replicate 650 0⟩ = some m' ∧
      decode m'.raw_data = some (Except.ok m2) ∧
      m2.partitions.map (fun e => (e.start, e.length, e.name, e.ty)) =
        (⟨true, ⟨512, 2, 1, 1, 0, 0, []⟩, true, [PartitionEntry.new],
          List.replicate 650 0⟩ : ApmMap).partitions.map
          (fun e => (e.start, e.length, e.name, e.ty)) ∧
      m2.driver_desc.drivers =
        (⟨true, ⟨512, 2, 1, 1, 0, 0, []⟩, true, [PartitionEntry.new],
          List.replicate 650 0⟩ : ApmMap).driver_desc.drivers := by
  obtain ⟨m', hm'⟩ : ∃ m', encodeM ⟨true, ⟨512, 2, 1, 1, 0, 0, []⟩, true,
      [PartitionEntry.new], List.replicate 650 0⟩ = some m' := ⟨_, rfl⟩
  obtain ⟨m2, h1, h2, h3⟩ := C9_encode_decode_roundtrip _ m' (by decide) rfl rfl hm'
  exact ⟨m', m2, hm', h1, h2, h3⟩

/-! ### Step equations for the mutating operations -/

theorem new_raw_length (blocks : Nat) :
    (ApmMap.new blocks).raw_data.length = blocks * 512 := by
  simp [ApmMap.new]

/-- The fresh map's partition table is the single bookkeeping entry. -/
theorem new_partitions (blocks : Nat) :
    (ApmMap.new blocks).partitions = [{ PartitionEntry.new with
      start := 1, length := 0x3f, data_count := 0x3f, partition_count := 1,
      name := appleNameBytes, ty := applePartMapBytes }] := rfl

/-- `find_hole`'s loop keeps only the last used entry's `start + length`
(or the initial 1): the fold equals the `getLast?` of the used list. -/
theorem allocCandidate_eq_getLast (m : ApmMap) :
    allocCandidate m = match (partitionsUsed m).getLast? with
      | none => 1
      | some p => (p.start + p.length) % 4294967296 := by
  rw [allocCandidate]
  generalize partitionsUsed m = l
  induction l with
  | nil => rfl
  | cons a t ih =>
    cases t with
    | nil => rfl
    | cons b t2 =>
      rw [List.foldl_cons]
      rw [show ((b :: t2).foldl (fun _ p => (p.start + p.length) % 4294967296)
        ((a.start + a.length) % 4294967296)) =
        (b :: t2).foldl (fun _ p => (p.start + p.length) % 4294967296) 1 from ?_]
      · rw [ih, List.getLast?_cons_cons]
      · rw [List.foldl_cons, List.foldl_cons]

theorem findHole_eq_ok (m : ApmMap) (size : Nat)
    (hall : m.partitions.all (sliceOk m.raw_data.length) = true)
    (h : ¬ (allocCandidate m + size) % 4294967296 >
      m.raw_data.length % 4294967296 / 512) :
    findHole m size = some (.ok (allocCandidate m)) := by
  rw [findHole, if_pos hall, if_neg h]

theorem findHole_eq_err (m : ApmMap) (size : Nat)
    (hall : m.partitions.all (sliceOk m.raw_data.length) = true)
    (h : (allocCandidate m + size) % 4294967296 >
      m.raw_data.length % 4294967296 / 512) :
    findHole m size = some (.error .NoSpace) := by
  rw [findHole, if_pos hall, if_pos h]

set_option maxHeartbeats 1000000 in
theorem pushPartition_eq_crash (m : ApmMap) (nm ty data : List Nat)
    (hfh : findHole m (((data.length + 0x1ff) / 512) % 4294967296) = none) :
    pushPartition m nm ty data = .crash := by
  rw [pushPartition]
  rw [hfh]

/-- The payload-slicing panic is reachable: on a fresh 10-block image the
seeded bookkeeping entry spans blocks 1..63, past the 5120-byte buffer, so
`find_hole` panics slicing it and `push_partition` crashes instead of
returning `NoSpace`. -/
theorem findHole_crash_small_image :
    findHole (ApmMap.new 10) 1 = none ∧
    pushPartition (ApmMap.new 10) [97] [98] [0] = .crash := by
  have hall : (ApmMap.new 10).partitions.all
      (sliceOk (ApmMap.new 10).raw_data.length) = false := by
    rw [new_raw_length, new_partitions]
    decide
  have hnot : ¬ (ApmMap.new 10).partitions.all
      (sliceOk (ApmMap.new 10).raw_data.length) = true := by
    rw [hall]
    simp
  refine ⟨by rw [findHole, if_neg hnot], ?_⟩
  exact pushPartition_eq_crash _ _ _ _ (by rw [findHole, if_neg hnot])

set_option maxHeartbeats 1000000 in
theorem pushPartition_eq_ok (m : ApmMap) (nm ty data : List Nat) (start : Nat)
    (hfh : findHole m (((data.length + 0x1ff) / 512) % 4294967296) =
      some (.ok start))
    (hfit : start * 512 % 4294967296 + data.length ≤ m.raw_data.length) :
    pushPartition m nm ty data = .ok
      { updatePartitionCount
          { m with
            partitions := m.partitions ++
              [{ PartitionEntry.new with
                  start := start,
                  length := ((data.length + 0x1ff) / 512) % 4294967296,
                  data_count := ((data.length + 0x1ff) / 512) % 4294967296,
                  name := nm, ty := ty }],
            raw_data := writeBytes m.raw_data (start * 512 % 4294967296) data }
        with update_partition_table := true } := by
  rw [pushPartition]
  rw [hfh]
  simp only [hfit, if_true]

set_option maxHeartbeats 1000000 in
theorem pushPartition_eq_err (m : ApmMap) (nm ty data : List Nat)
    (hfh : findHole m (((data.length + 0x1ff) / 512) % 4294967296) =
      some (.error .NoSpace)) :
    pushPartition m nm ty data = .err .NoSpace m := by
  rw [pushPartition]
  rw [hfh]

set_option maxHeartbeats 1000000 in
theorem pushDriver_eq_ok (m : ApmMap) (ty : Nat) (data : List Nat) (start : Nat)
    (hfh : findHole m (((data.length + 0x1ff) / 512) % 4294967296) =
      some (.ok start))
    (hfit : start * 512 % 4294967296 + data.length ≤ m.raw_data.length) :
    pushDriver m ty data = .ok
      { m with
        driver_desc := pushDriverData m.driver_desc
          ⟨start, ((data.length + 0x1ff) / 512) % 65536, ty⟩,
        raw_data := writeBytes m.raw_data (start * 512 % 4294967296) data,
        update_driver_desc := true } := by
  rw [pushDriver]
  rw [hfh]
  simp only [hfit, if_true]

set_option maxHeartbeats 1000000 in
theorem pushDriver_eq_err (m : ApmMap) (ty : Nat) (data : List Nat)
    (hfh : findHole m (((data.length + 0x1ff) / 512) % 4294967296) =
      some (.error .NoSpace)) :
    pushDriver m ty data = .err .NoSpace m := by
  rw [pushDriver]
  rw [hfh]

set_option maxHeartbeats 1000000 in
theorem pushPartitionAt_eq_ok (m : ApmMap) (nm ty proc data : List Nat)
    (start : Nat) (hck : appleChecksumCompute data = 0x885f)
    (hfit : start * 512 % 4294967296 + data.length ≤ m.raw_data.length) :
    pushPartitionAt m nm ty proc data start = .ok
      { updatePartitionCount
          { m with
            partitions := m.partitions ++
              [{ PartitionEntry.new with
                  start := start,
                  length := ((data.length + 0x1ff) / 512) % 4294967296,
                  data_count := ((data.length + 0x1ff) / 512) % 4294967296,
                  name := nm, ty := ty,
                  boot_checksum := 0xf624, boot_size := 9392,
                  proc_type := proc }],
            raw_data := writeBytes m.raw_data (start * 512 % 4294967296) data }
        with update_partition_table := true } := by
  rw [pushPartitionAt]
  have hck2 : appleChecksum data = some 0x885f := by
    rw [appleChecksum, hck]
    simp
  rw [hck2]
  simp only [hfit, if_true]

/-! ### C5: the allocator start block -/

/-- Stated from the amended claim's words: the end (`start + length`, as
u32) of the *last* entry in table order whose type is not `"Apple_Free"`,
or block 1 when no used entry exists. -/
def lastUsedEnd (m : ApmMap) : Nat :=
  match (partitionsUsed m).getLast? with
  | none => 1
  | some p => (p.start + p.length) % 4294967296

/-- C5 (amended): the start block chosen by `find_hole` equals `start +
length` of the *last* used entry in table order (not the highest such end),
and block 1 when no used entry exists. -/
theorem C5_alloc_start_is_last_used_end (m : ApmMap) (size h : Nat)
    (hfh : findHole m size = some (.ok h)) : h = lastUsedEnd m := by
  rw [findHole] at hfh
  by_cases hall : m.partitions.all (sliceOk m.raw_data.length) = true
  · rw [if_pos hall] at hfh
    by_cases hc : (allocCandidate m + size) % 4294967296 >
        m.raw_data.length % 4294967296 / 512
    · rw [if_pos hc] at hfh
      exact absurd hfh (by simp)
    · rw [if_neg hc] at hfh
      simp only [Option.some_inj, Except.ok.injEq] at hfh
      rw [← hfh, allocCandidate_eq_getLast, lastUsedEnd]
  · rw [if_neg hall] at hfh
    exact absurd hfh (by simp)

/-- Witness for C5: on a fresh 70-block image the allocator hands out
block 64, the seeded entry's end. -/
theorem C5_alloc_witness :
    ∃ h, findHole (ApmMap.new 70) 1 = some (Except.ok h) ∧
      h = lastUsedEnd (ApmMap.new 70) := by
  have hok : findHole (ApmMap.new 70) 1 =
      some (.ok (allocCandidate (ApmMap.new 70))) := by
    apply findHole_eq_ok
    · rw [new_raw_length, new_partitions]
      decide
    · rw [new_raw_length]
      decide
  exact ⟨_, hok, C5_alloc_start_is_last_used_end _ 1 _ hok⟩

/-- The image after `push_partition_at` places a one-block entry at block 5
on a fresh 70-block image (the C5/C1 counterexample scenarios). -/
def c5m1 : ApmMap :=
  { update_driver_desc := true,
    driver_desc := { DriverDescriptorBlock.default with blk_count := 70 },
    update_partition_table := true,
    partitions :=
      [{ PartitionEntry.new with
          partition_count := 2,
          start := 1,
          length := 0x3f,
          data_count := 0x3f,
          name := appleNameBytes,
          ty := applePartMapBytes },
       { PartitionEntry.new with
          partition_count := 2,
          start := 5,
          length := 1,
          data_count := 1,
          name := [120],
          ty := [121],
          boot_checksum := 0xf624,
          boot_size := 9392,
          proc_type := [122] }],
    raw_data := writeBytes (List.replicate 35840 0) 2560
      [0x80, 0x80, 0, 0, 0, 0x80, 0, 0, 0x2F] }

/-- The image after a further `push_partition` on `c5m1`. -/
def c5m2 : ApmMap :=
  { update_driver_desc := true,
    driver_desc := { DriverDescriptorBlock.default with blk_count := 70 },
    update_partition_table := true,
    partitions :=
      [{ PartitionEntry.new with
          partition_count := 3,
          start := 1,
          length := 0x3f,
          data_count := 0x3f,
          name := appleNameBytes,
          ty := applePartMapBytes },
       { PartitionEntry.new with
          partition_count := 3,
          start := 5,
          length := 1,
          data_count := 1,
          name := [120],
          ty := [121],
          boot_checksum := 0xf624,
          boot_size := 9392,
          proc_type := [122] },
       { PartitionEntry.new with
          partition_count := 3,
          start := 6,
          length := 1,
          data_count := 1,
          name := [99],
          ty := [100] }],
    raw_data := writeBytes (writeBytes (List.replicate 35840 0) 2560
      [0x80, 0x80, 0, 0, 0, 0x80, 0, 0, 0x2F]) 3072 [0] }

theorem c5m1_raw_length : c5m1.raw_data.length = 35840 := by
  rw [c5m1]
  rw [length_writeBytes _ _ _ (by rw [List.length_replicate]; norm_num)]
  rw [List.length_replicate]

/-- Counterexample for C5 as stated: after `push_partition_at` places an
entry at block 5, the used ends are `[64, 6]`; the next `push_partition`
starts the new extent at 6 (the last used end), not at the highest end 64. -/
theorem C5_counterexample :
    pushPartitionAt (ApmMap.new 70) [120] [121] [122]
      [0x80, 0x80, 0, 0, 0, 0x80, 0, 0, 0x2F] 5 = .ok c5m1 ∧
    pushPartition c5m1 [99] [100] [0] = .ok c5m2 ∧
    (partitionsUsed c5m1).map (fun p => p.start + p.length) = [64, 6] ∧
    c5m2.partitions.map (fun p => p.start) = [1, 5, 6] := by
  have hfit1 : (5 : Nat) * 512 % 4294967296 +
      ([0x80, 0x80, 0, 0, 0, 0x80, 0, 0, 0x2F] : List Nat).length ≤
      (ApmMap.new 70).raw_data.length := by
    rw [new_raw_length]
    norm_num
  refine ⟨?_, ?_, by decide, by decide⟩
  · rw [pushPartitionAt_eq_ok (ApmMap.new 70) [120] [121] [122]
      [0x80, 0x80, 0, 0, 0, 0x80, 0, 0, 0x2F] 5 (by decide) hfit1]
    rfl
  · have hcand : allocCandidate c5m1 = 6 := by decide
    have hall1 : c5m1.partitions.all (sliceOk c5m1.raw_data.length) = true := by
      rw [c5m1_raw_length]
      decide
    have hfh : findHole c5m1 ((([0] : List Nat).length + 0x1ff) / 512 % 4294967296) =
        some (.ok 6) := by
      rw [findHole, if_pos hall1, c5m1_raw_length, hcand]
      norm_num
    have hfit2 : (6 : Nat) * 512 % 4294967296 + ([0] : List Nat).length ≤
        c5m1.raw_data.length := by
      rw [c5m1_raw_length]
      norm_num
    rw [pushPartition_eq_ok c5m1 [99] [100] [0] 6 hfh hfit2]
    rfl

/-! ### C1: allocator extents -/

/-- Inversion of a successful `find_hole`. -/
theorem findHole_ok_inv (m : ApmMap) (size start : Nat)
    (h : findHole m size = some (.ok start)) :
    start = allocCandidate m ∧
    ¬ (allocCandidate m + size) % 4294967296 >
      m.raw_data.length % 4294967296 / 512 := by
  rw [findHole] at h
  by_cases hall : m.partitions.all (sliceOk m.raw_data.length) = true
  · rw [if_pos hall] at h
    by_cases hc : (allocCandidate m + size) % 4294967296 >
        m.raw_data.length % 4294967296 / 512
    · rw [if_pos hc] at h
      exact absurd h (by simp)
    · rw [if_neg hc] at h
      simp only [Option.some_inj, Except.ok.injEq] at h
      exact ⟨h.symm, hc⟩
  · rw [if_neg hall] at h
    exact absurd h (by simp)

set_option maxHeartbeats 1000000 in
/-- Inversion of a successful `push_partition`. -/
theorem pushPartition_ok_inv (m : ApmMap) (nm ty data : List Nat) (m' : ApmMap)
    (h : pushPartition m nm ty data = .ok m') :
    ∃ start,
      findHole m (((data.length + 0x1ff) / 512) % 4294967296) =
        some (.ok start) ∧
      start * 512 % 4294967296 + data.length ≤ m.raw_data.length ∧
      m' = { updatePartitionCount
          { m with
            partitions := m.partitions ++
              [{ PartitionEntry.new with
                  start := start,
                  length := ((data.length + 0x1ff) / 512) % 4294967296,
                  data_count := ((data.length + 0x1ff) / 512) % 4294967296,
                  name := nm, ty := ty }],
            raw_data := writeBytes m.raw_data (start * 512 % 4294967296) data }
        with update_partition_table := true } := by
  rw [pushPartition] at h
  cases hfh : findHole m ((data.length + 0x1ff) / 512 % 4294967296) with
  | none =>
    simp only [hfh] at h
    exact absurd h (by simp)
  | some r =>
    cases r with
    | error e =>
      simp only [hfh] at h
      exact absurd h (by simp)
    | ok start =>
      simp only [hfh] at h
      by_cases hg : start * 512 % 4294967296 + data.length ≤ m.raw_data.length
      · simp only [hg, if_true] at h
        simp only [MutResult.ok.injEq] at h
        exact ⟨start, rfl, hg, h.symm⟩
      · simp only [hg, if_false, reduceIte] at h
        exact absurd h (by simp)

set_option maxHeartbeats 1000000 in
/-- Inversion of a successful `push_driver`. -/
theorem pushDriver_ok_inv (m : ApmMap) (ty : Nat) (data : List Nat) (m' : ApmMap)
    (h : pushDriver m ty data = .ok m') :
    ∃ start,
      findHole m (((data.length + 0x1ff) / 512) % 4294967296) =
        some (.ok start) ∧
      start * 512 % 4294967296 + data.length ≤ m.raw_data.length ∧
      m' = { m with
        driver_desc := pushDriverData m.driver_desc
          ⟨start, ((data.length + 0x1ff) / 512) % 65536, ty⟩,
        raw_data := writeBytes m.raw_data (start * 512 % 4294967296) data,
        update_driver_desc := true } := by
  rw [pushDriver] at h
  cases hfh : findHole m ((data.length + 0x1ff) / 512 % 4294967296) with
  | none =>
    simp only [hfh] at h
    exact absurd h (by simp)
  | some r =>
    cases r with
    | error e =>
      simp only [hfh] at h
      exact absurd h (by simp)
    | ok start =>
      simp only [hfh] at h
      by_cases hg : start * 512 % 4294967296 + data.length ≤ m.raw_data.length
      · simp only [hg, if_true] at h
        simp only [MutResult.ok.injEq] at h
        exact ⟨start, rfl, hg, h.symm⟩
      · simp only [hg, if_false, reduceIte] at h
        exact absurd h (by simp)

/-- `a`'s extent ends at or before `b`'s begins. -/
def endsBefore (a b : PartitionEntry) : Prop :=
  a.start + a.length ≤ b.start

/-- The inductive invariant behind C1: the used entries' extents are chained
left to right, every entry's end is bounded by 64 blocks past the device
end, and the buffer is u32-sized. -/
def C1Inv (m : ApmMap) : Prop :=
  List.Chain' endsBefore (partitionsUsed m) ∧
  (∀ p ∈ m.partitions, p.start + p.length ≤ 64 + m.raw_data.length / 512) ∧
  m.raw_data.length < 4294967296

/-- The states reachable by sequences of successful `add_partition` and
`add_driver` calls on a freshly constructed image smaller than 4 GiB. -/
inductive Reachable : ApmMap → Prop where
  | init (blocks : Nat) (h : blocks * 512 < 4294967296) :
      Reachable (ApmMap.new blocks)
  | part (m m' : ApmMap) (name ty data : List Nat) :
      Reachable m → pushPartition m name ty data = .ok m' → Reachable m'
  | driver (m m' : ApmMap) (ty : Nat) (data : List Nat) :
      Reachable m → pushDriver m ty data = .ok m' → Reachable m'

theorem chain'_of_length_le_one {R : PartitionEntry → PartitionEntry → Prop}
    (l : List PartitionEntry) (h : l.length ≤ 1) : List.Chain' R l := by
  cases l with
  | nil => exact List.chain'_nil
  | cons a t =>
    cases t with
    | nil => exact List.chain'_singleton a
    | cons b t2 => simp at h

theorem used_of_map_count (l : List PartitionEntry) (n : Nat) :
    (l.map (fun p => { p with partition_count := n })).filter
        (fun p => p.ty ≠ appleFreeBytes) =
      (l.filter (fun p => p.ty ≠ appleFreeBytes)).map
        (fun p => { p with partition_count := n }) := by
  rw [List.filter_map]
  congr 1

theorem chain'_map_count (l : List PartitionEntry) (n : Nat)
    (h : List.Chain' endsBefore l) :
    List.Chain' endsBefore
      (l.map (fun p => { p with partition_count := n })) := by
  rw [List.chain'_map]
  exact List.Chain'.imp (fun a b hab => hab) h

theorem C1Inv_new (blocks : Nat) (h : blocks * 512 < 4294967296) :
    C1Inv (ApmMap.new blocks) := by
  refine ⟨?_, ?_, ?_⟩
  · have heq : partitionsUsed (ApmMap.new blocks) =
        (ApmMap.new blocks).partitions := by
      rw [partitionsUsed]
      rfl
    rw [heq]
    exact List.chain'_singleton _
  · intro p hp
    have hpe : p = { PartitionEntry.new with
        start := 1, length := 0x3f, data_count := 0x3f, partition_count := 1,
        name := appleNameBytes, ty := applePartMapBytes } := by
      simpa [ApmMap.new] using hp
    rw [hpe]
    simp
  · rw [new_raw_length]
    exact h

set_option maxHeartbeats 1000000 in
theorem C1Inv_pushPartition (m m' : ApmMap) (nm ty data : List Nat)
    (hinv : C1Inv m) (h : pushPartition m nm ty data = .ok m') : C1Inv m' := by
  obtain ⟨start, hfh, hfit, hm'⟩ := pushPartition_ok_inv m nm ty data m' h
  obtain ⟨hstart, hcheck⟩ := findHole_ok_inv _ _ _ hfh
  obtain ⟨hchain, hbnd, hlen⟩ := hinv
  have hdlen : data.length ≤ m.raw_data.length := by omega
  have hsize_lt : (data.length + 0x1ff) / 512 < 8388609 := by omega
  have h512 : m.raw_data.length / 512 < 8388608 := by omega
  have hsz_mod : ((data.length + 0x1ff) / 512) % 4294967296 =
      (data.length + 0x1ff) / 512 := Nat.mod_eq_of_lt (by omega)
  have hcand_le : allocCandidate m ≤ 64 + m.raw_data.length / 512 := by
    rw [allocCandidate_eq_getLast]
    cases hgl : (partitionsUsed m).getLast? with
    | none =>
      show (1 : Nat) ≤ 64 + m.raw_data.length / 512
      omega
    | some p =>
      have hpm : p ∈ m.partitions :=
        List.mem_of_mem_filter (List.mem_of_getLast?_eq_some hgl)
      have hb := hbnd p hpm
      show (p.start + p.length) % 4294967296 ≤ 64 + m.raw_data.length / 512
      rw [Nat.mod_eq_of_lt (by omega)]
      exact hb
  have hnowrap : allocCandidate m + (data.length + 0x1ff) / 512 <
      4294967296 := by omega
  have hcheck' : allocCandidate m + (data.length + 0x1ff) / 512 ≤
      m.raw_data.length / 512 := by
    rw [hsz_mod, Nat.mod_eq_of_lt hnowrap, Nat.mod_eq_of_lt hlen] at hcheck
    omega
  have hlenw : (writeBytes m.raw_data (start * 512 % 4294967296) data).length =
      m.raw_data.length := length_writeBytes _ _ _ (by omega)
  subst hstart
  subst hm'
  refine ⟨?_, ?_, ?_⟩
  · show List.Chain' endsBefore (partitionsUsed _)
    rw [partitionsUsed]
    simp only [updatePartitionCount]
    rw [used_of_map_count]
    apply chain'_map_count
    rw [List.filter_append]
    apply List.chain'_append.mpr
    refine ⟨hchain, ?_, ?_⟩
    · exact chain'_of_length_le_one _ (by simpa using List.length_filter_le _ _)
    · intro x hx y hy
      have hy2 := List.mem_of_mem_filter (List.mem_of_mem_head? hy)
      simp only [List.mem_singleton] at hy2
      subst hy2
      show x.start + x.length ≤ allocCandidate m
      have hxm : x ∈ m.partitions :=
        List.mem_of_mem_filter (List.mem_of_getLast?_eq_some hx)
      have hxb := hbnd x hxm
      have hcand_eq : allocCandidate m = (x.start + x.length) % 4294967296 := by
        rw [allocCandidate_eq_getLast,
          show (partitionsUsed m).getLast? = some x from hx]
      rw [hcand_eq, Nat.mod_eq_of_lt (by omega)]
  · intro p hp
    simp only [updatePartitionCount, List.map_append, List.mem_append] at hp
    simp only [updatePartitionCount]
    rw [hlenw]
    rcases hp with hp | hp
    · obtain ⟨q, hq, hqe⟩ := List.mem_map.mp hp
      rw [← hqe]
      exact hbnd q hq
    · simp only [List.map_cons, List.map_nil, List.mem_singleton] at hp
      subst hp
      show allocCandidate m + (data.length + 0x1ff) / 512 % 4294967296 ≤
        64 + m.raw_data.length / 512
      rw [hsz_mod]
      omega
  · simp only [updatePartitionCount]
    rw [hlenw]
    exact hlen

theorem C1Inv_pushDriver (m m' : ApmMap) (ty : Nat) (data : List Nat)
    (hinv : C1Inv m) (h : pushDriver m ty data = .ok m') : C1Inv m' := by
  obtain ⟨start, hfh, hfit, hm'⟩ := pushDriver_ok_inv m ty data m' h
  obtain ⟨hchain, hbnd, hlen⟩ := hinv
  have hlenw : (writeBytes m.raw_data (start * 512 % 4294967296) data).length =
      m.raw_data.length := length_writeBytes _ _ _ (by omega)
  subst hm'
  exact ⟨hchain, fun p hp => by rw [hlenw]; exact hbnd p hp, by rw [hlenw]; exact hlen⟩

theorem C1Inv_reachable (m : ApmMap) (h : Reachable m) : C1Inv m := by
  induction h with
  | init blocks hb => exact C1Inv_new blocks hb
  | part m m' nm ty data _ hok ih => exact C1Inv_pushPartition m m' nm ty data ih hok
  | driver m m' ty data _ hok ih => exact C1Inv_pushDriver m m' ty data ih hok

/-- C1 (amended): in every state reachable by successful `add_partition` /
`add_driver` calls from a fresh image (buffer under 4 GiB), the extents of
the partition-table entries whose type is not `"Apple_Free"` are pairwise
disjoint.  (The allocator does not track driver extents, so no such
guarantee holds between drivers and later partitions — see the
counterexample.) -/
theorem C1_used_partition_extents_disjoint (m : ApmMap) (h : Reachable m) :
    List.Pairwise
      (fun a b => a.start + a.length ≤ b.start ∨ b.start + b.length ≤ a.start)
      (partitionsUsed m) := by
  have hchain := (C1Inv_reachable m h).1
  haveI : IsTrans PartitionEntry endsBefore :=
    ⟨fun a b c hab hbc => by
      show a.start + a.length ≤ c.start
      have h1 : a.start + a.length ≤ b.start := hab
      have h2 : b.start + b.length ≤ c.start := hbc
      omega⟩
  exact (List.chain'_iff_pairwise.mp hchain).imp (fun hab => Or.inl hab)

/-- Witness for C1: the fresh 70-block image is reachable and its used
extents are pairwise disjoint. -/
theorem C1_disjoint_witness :
    List.Pairwise
      (fun a b => a.start + a.length ≤ b.start ∨ b.start + b.length ≤ a.start)
      (partitionsUsed (ApmMap.new 70)) :=
  C1_used_partition_extents_disjoint (ApmMap.new 70)
    (Reachable.init 70 (by norm_num))

/-- The image after `push_driver` places a one-block driver at block 64 on
a fresh 70-block image. -/
def c1m1 : ApmMap :=
  { update_driver_desc := true,
    driver_desc :=
      { block_size := 0x200, blk_count := 70, dev_type := 1, dev_id := 1,
        data := 0, driver_count := 1, drivers := [⟨64, 1, 1⟩] },
    update_partition_table := true,
    partitions :=
      [{ PartitionEntry.new with
          partition_count := 1,
          start := 1,
          length := 0x3f,
          data_count := 0x3f,
          name := appleNameBytes,
          ty := applePartMapBytes }],
    raw_data := writeBytes (List.replicate 35840 0) 32768 [0] }

/-- The image after a further `push_partition` on `c1m1`: the new partition
extent starts at block 64, exactly where the driver lives. -/
def c1m2 : ApmMap :=
  { update_driver_desc := true,
    driver_desc :=
      { block_size := 0x200, blk_count := 70, dev_type := 1, dev_id := 1,
        data := 0, driver_count := 1, drivers := [⟨64, 1, 1⟩] },
    update_partition_table := true,
    partitions :=
      [{ PartitionEntry.new with
          partition_count := 2,
          start := 1,
          length := 0x3f,
          data_count := 0x3f,
          name := appleNameBytes,
          ty := applePartMapBytes },
       { PartitionEntry.new with
          partition_count := 2,
          start := 64,
          length := 1,
          data_count := 1,
          name := [97],
          ty := [98] }],
    raw_data := writeBytes (writeBytes (List.replicate 35840 0) 32768 [0])
      32768 [0] }

theorem c1m1_raw_length : c1m1.raw_data.length = 35840 := by
  rw [c1m1]
  rw [length_writeBytes _ _ _ (by rw [List.length_replicate]; norm_num)]
  rw [List.length_replicate]

/-- Counterexample for C1 as stated: on a fresh 70-block image,
`push_driver` receives the extent `[64, 65)` from the allocator, and the
next `push_partition` receives the very same extent `[64, 65)` — the two
extents overlap, because `find_hole` only scans the partition table and
never sees driver extents. -/
theorem C1_counterexample :
    pushDriver (ApmMap.new 70) 1 [0] = .ok c1m1 ∧
    pushPartition c1m1 [97] [98] [0] = .ok c1m2 ∧
    c1m1.driver_desc.drivers = [⟨64, 1, 1⟩] ∧
    c1m2.partitions.map (fun p => (p.start, p.length)) = [(1, 63), (64, 1)] ∧
    ¬ (64 + 1 ≤ 64 ∨ 64 + 1 ≤ 64) := by
  have hall0 : (ApmMap.new 70).partitions.all
      (sliceOk (ApmMap.new 70).raw_data.length) = true := by
    rw [new_raw_length, new_partitions]
    decide
  have hfh0 : findHole (ApmMap.new 70)
      ((([0] : List Nat).length + 0x1ff) / 512 % 4294967296) =
      some (.ok 64) := by
    rw [findHole, if_pos hall0, new_raw_length,
      show allocCandidate (ApmMap.new 70) = 64 from by decide]
    norm_num
  have hfit0 : (64 : Nat) * 512 % 4294967296 + ([0] : List Nat).length ≤
      (ApmMap.new 70).raw_data.length := by
    rw [new_raw_length]
    norm_num
  have hall1 : c1m1.partitions.all (sliceOk c1m1.raw_data.length) = true := by
    rw [c1m1_raw_length]
    decide
  have hfh1 : findHole c1m1
      ((([0] : List Nat).length + 0x1ff) / 512 % 4294967296) =
      some (.ok 64) := by
    rw [findHole, if_pos hall1, c1m1_raw_length,
      show allocCandidate c1m1 = 64 from by decide]
    norm_num
  have hfit1 : (64 : Nat) * 512 % 4294967296 + ([0] : List Nat).length ≤
      c1m1.raw_data.length := by
    rw [c1m1_raw_length]
    norm_num
  refine ⟨?_, ?_, by decide, by decide, by decide⟩
  · rw [pushDriver_eq_ok (ApmMap.new 70) 1 [0] 64 hfh0 hfit0]
    rfl
  · rw [pushPartition_eq_ok c1m1 [97] [98] [0] 64 hfh1 hfit1]
    rfl

/-! ### C2, C3, C4, C7, C10 -/

/-- The serialized default partition record, minus its two signature bytes. -/
def pmTailBytes : List Nat := ((entryToBytes PartitionEntry.new).getD []).drop 2

/-- C2: the source's deku assert is `*sig == 0x504d || *sig == 5453` — the
second magic is the *decimal* literal `5453` (= 0x154D), contradicting the
field's own doc comment ("Magic bytes, 0x504d or 0x5453").  A record with
the first magic 0x504d (`"PM"`) is accepted as documented, but a record
whose signature is the documented 0x5453 (`"TS"`) is rejected, while a
record with the meaningless signature 0x154D is accepted. -/
theorem C2_signature_decimal_bug :
    (∃ e, parseEntry (0x50 :: 0x4D :: pmTailBytes) = some e ∧ e.sig = 0x504d) ∧
    parseEntry (0x54 :: 0x53 :: pmTailBytes) = none ∧
    (∃ e, parseEntry (0x15 :: 0x4D :: pmTailBytes) = some e ∧ e.sig = 5453) ∧
    (5453 : Nat) ≠ 0x5453 := by
  refine ⟨⟨_, rfl, rfl⟩, by decide, ⟨_, rfl, rfl⟩, by decide⟩

/-- C3: `write_string` panics (index out of bounds, modelled `none`) on a
33-character label instead of reporting a `LabelTooLongError`; a 32-character
label encodes successfully, filling the whole slot with no terminator byte.
Encoding a record with an over-long name panics the whole serializer. -/
theorem C3_label_overflow_panics :
    writeStringN 32 (List.replicate 33 0x41) = none ∧
    writeStringN 32 (List.replicate 32 0x41) = some (List.replicate 32 0x41) ∧
    (0 : Nat) ∉ List.replicate 32 0x41 ∧
    entryToBytes { PartitionEntry.new with name := List.replicate 33 0x41 } =
      none := by
  decide

/-- C4: `apple_checksum` ends with `assert_eq!(ret, 0x885f)`, so the source
function panics (`none`) on every input whose checksum differs from 0x885f —
including the empty slice, whose computed value is the 0xFFFF sentinel, and
`[1]`, whose computed value is 2.  Only inputs with checksum 0x885f return. -/
theorem C4_checksum_hardcoded_assert :
    appleChecksum [] = none ∧
    appleChecksumCompute [] = 0xffff ∧
    appleChecksum [1] = none ∧
    appleChecksumCompute [1] = 2 ∧
    appleChecksum [0x80, 0x80, 0, 0, 0, 0x80, 0, 0, 0x2F] = some 0x885f := by
  decide

/-- A partition record whose `length` (5) and `data_count` (7) differ. -/
def c7entryVal : PartitionEntry :=
  { PartitionEntry.new with
    partition_count := 1, start := 1, length := 5, data_count := 7 }

/-- Block 0 of the C7 image: a default descriptor block, zero-padded. -/
def c7blkDesc : List Nat :=
  driverDescToBytes DriverDescriptorBlock.default ++ List.replicate 494 0

/-- Block 1 of the C7 image: the mismatched record, zero-padded. -/
def c7blkEnt : List Nat :=
  (entryToBytes c7entryVal).getD [] ++ List.replicate 376 0

/-- The two-block C7 image. -/
def c7input : List Nat := c7blkDesc ++ c7blkEnt

/-- C7: `decode` accepts an image whose partition record has
`data-length ≠ length` (here 7 ≠ 5) without any validation, so the mirror
invariant does not hold after decode of arbitrary input; the accessor
`PartitionEntry::length()` then panics on its own `assert_eq!` (`none`). -/
theorem C7_decode_breaks_length_mirror :
    ∃ m, decode c7input = some (Except.ok m) ∧
      m.partitions.map (fun p => (p.length, p.data_count)) = [(5, 7)] ∧
      m.partitions.head?.map PartitionEntry.lengthGetter = some none := by
  have hdd : parseDriverDesc (getBlock c7input 0) =
      some DriverDescriptorBlock.default := by
    rw [c7input, getBlock_append_zero _ _ (by decide)]
    decide
  have hlen : c7input.length = 1024 := by decide
  have hps : decodeEntries c7input 1 = .ok [c7entryVal] := by
    apply decodeEntries_stop
    · rw [numBlocks, hlen]
      norm_num
    · rw [c7input, getBlock_append_succ _ _ (by decide) 0]
      have : getBlock c7blkEnt 0 = c7blkEnt := by
        rw [getBlock]
        decide
      rw [this]
      decide
    · decide
  refine ⟨_, decode_ok c7input DriverDescriptorBlock.default [c7entryVal]
    (by rw [hlen]; omega) hdd hps, by decide, by decide⟩

set_option maxHeartbeats 1000000 in
/-- C10: every successful `push_partition_at` appends a record whose
boot-checksum is the constant 0xF624 and whose boot-code size is the
constant 9392, whatever the name, type, processor-type, payload and start
arguments were; the function takes no parameters for these fields. -/
theorem C10_boot_metadata_constants (m : ApmMap) (nm ty proc data : List Nat)
    (start : Nat) (m' : ApmMap)
    (h : pushPartitionAt m nm ty proc data start = .ok m') :
    ∃ e, m'.partitions.getLast? = some e ∧
      e.boot_checksum = 0xf624 ∧ e.boot_size = 9392 := by
  rw [pushPartitionAt] at h
  cases hck : appleChecksum data with
  | none =>
    simp only [hck] at h
    exact absurd h (by simp)
  | some v =>
    simp only [hck] at h
    by_cases hg : start * 512 % 4294967296 + data.length ≤ m.raw_data.length
    · simp only [hg, if_true] at h
      simp only [MutResult.ok.injEq] at h
      subst h
      simp only [updatePartitionCount, List.map_append, List.map_cons,
        List.map_nil]
      rw [List.getLast?_append]
      · exact ⟨_, rfl, rfl, rfl⟩
    · simp only [hg, if_false, reduceIte] at h
      exact absurd h (by simp)

/-- Witness for C10: a concrete `push_partition_at` call on a tiny image. -/
theorem C10_boot_metadata_witness :
    ∃ m' e,
      pushPartitionAt
        ⟨true, DriverDescriptorBlock.default, true, [], List.replicate 16 0⟩
        [1] [2] [3] [0x80, 0x80, 0, 0, 0, 0x80, 0, 0, 0x2F] 0 = .ok m' ∧
      m'.partitions.getLast? = some e ∧
      e.boot_checksum = 0xf624 ∧ e.boot_size = 9392 := by
  obtain ⟨m', hm'⟩ : ∃ m', pushPartitionAt
      ⟨true, DriverDescriptorBlock.default, true, [], List.replicate 16 0⟩
      [1] [2] [3] [0x80, 0x80, 0, 0, 0, 0x80, 0, 0, 0x2F] 0 = .ok m' := ⟨_, rfl⟩
  obtain ⟨e, h1, h2, h3⟩ := C10_boot_metadata_constants _ _ _ _ _ _ _ hm'
  exact ⟨m', e, hm', h1, h2, h3⟩


/-! ### C8: the capacity check -/

set_option maxHeartbeats 1000000 in
/-- C8: on a well-formed image, `push_partition` and `push_driver` return
the capacity error (`NoSpace`) exactly when the allocator's candidate start
plus the request's size in whole 512-byte blocks exceeds the device's total
block count (the buffer length over 512), and the erroring call returns with
the map — buffer, table, and descriptor block — unchanged; otherwise the
call succeeds.  Well-formedness includes `h4`: every table entry's payload
slice is in range, for otherwise `find_hole` panics while driving the
`partitions_used` iterator before it ever reaches the capacity check. -/
theorem C8_capacity_error_iff (m : ApmMap) (nm ty data : List Nat) (sysTy : Nat)
    (h1 : m.raw_data.length < 4294967296)
    (h2 : ∀ p ∈ m.partitions, p.start + p.length ≤ 64 + m.raw_data.length / 512)
    (h3 : data.length ≤ m.raw_data.length)
    (h4 : ∀ p ∈ m.partitions, p.start * 512 % 4294967296 +
      p.length * 512 % 4294967296 ≤ m.raw_data.length) :
    (pushPartition m nm ty data = .err .NoSpace m ↔
      allocCandidate m + (data.length + 0x1ff) / 512 > m.raw_data.length / 512) ∧
    (pushDriver m sysTy data = .err .NoSpace m ↔
      allocCandidate m + (data.length + 0x1ff) / 512 > m.raw_data.length / 512) ∧
    (¬ allocCandidate m + (data.length + 0x1ff) / 512 > m.raw_data.length / 512 →
      (∃ m', pushPartition m nm ty data = .ok m') ∧
      (∃ m', pushDriver m sysTy data = .ok m')) := by
  have hall : m.partitions.all (sliceOk m.raw_data.length) = true := by
    rw [List.all_eq_true]
    intro p hp
    exact decide_eq_true (h4 p hp)
  have hsize_lt : (data.length + 0x1ff) / 512 < 8388609 := by omega
  have h512 : m.raw_data.length / 512 < 8388608 := by omega
  have hsz_mod : ((data.length + 0x1ff) / 512) % 4294967296 =
      (data.length + 0x1ff) / 512 := Nat.mod_eq_of_lt (by omega)
  have hcand_le : allocCandidate m ≤ 64 + m.raw_data.length / 512 := by
    rw [allocCandidate_eq_getLast]
    cases hgl : (partitionsUsed m).getLast? with
    | none =>
      show (1 : Nat) ≤ 64 + m.raw_data.length / 512
      omega
    | some p =>
      have hpm : p ∈ m.partitions :=
        List.mem_of_mem_filter (List.mem_of_getLast?_eq_some hgl)
      have hb := h2 p hpm
      show (p.start + p.length) % 4294967296 ≤ 64 + m.raw_data.length / 512
      rw [Nat.mod_eq_of_lt (by omega)]
      exact hb
  have hnowrap : allocCandidate m + (data.length + 0x1ff) / 512 <
      4294967296 := by omega
  have hcond : ((allocCandidate m + ((data.length + 0x1ff) / 512) % 4294967296) %
        4294967296 > m.raw_data.length % 4294967296 / 512) ↔
      (allocCandidate m + (data.length + 0x1ff) / 512 >
        m.raw_data.length / 512) := by
    rw [hsz_mod, Nat.mod_eq_of_lt hnowrap, Nat.mod_eq_of_lt h1]
  have hguard : ¬ (allocCandidate m + (data.length + 0x1ff) / 512 >
      m.raw_data.length / 512) →
      allocCandidate m * 512 % 4294967296 + data.length ≤
        m.raw_data.length := by
    intro hc
    omega
  refine ⟨⟨?_, ?_⟩, ⟨?_, ?_⟩, ?_⟩
  · intro herr
    by_contra hc
    rw [pushPartition_eq_ok m nm ty data (allocCandidate m)
      (findHole_eq_ok _ _ hall (by rw [hcond]; exact hc)) (hguard hc)] at herr
    exact absurd herr (by simp)
  · intro hc
    exact pushPartition_eq_err m nm ty data
      (findHole_eq_err _ _ hall (hcond.mpr hc))
  · intro herr
    by_contra hc
    rw [pushDriver_eq_ok m sysTy data (allocCandidate m)
      (findHole_eq_ok _ _ hall (by rw [hcond]; exact hc)) (hguard hc)] at herr
    exact absurd herr (by simp)
  · intro hc
    exact pushDriver_eq_err m sysTy data
      (findHole_eq_err _ _ hall (hcond.mpr hc))
  · intro hc
    exact ⟨⟨_, pushPartition_eq_ok m nm ty data (allocCandidate m)
        (findHole_eq_ok _ _ hall (by rw [hcond]; exact hc)) (hguard hc)⟩,
      ⟨_, pushDriver_eq_ok m sysTy data (allocCandidate m)
        (findHole_eq_ok _ _ hall (by rw [hcond]; exact hc)) (hguard hc)⟩⟩

/-- Witness for C8: on a fresh 65-block image, a 600-byte payload needs
2 blocks starting at candidate 64, and 64 + 2 > 65, so `push_partition`
returns `NoSpace` and leaves the map untouched. -/
theorem C8_capacity_witness :
    pushPartition (ApmMap.new 65) [97] [98] (List.replicate 600 0) =
      .err ApmError.NoSpace (ApmMap.new 65) := by
  have h1 : (ApmMap.new 65).raw_data.length < 4294967296 := by
    rw [new_raw_length]
    norm_num
  have h2 : ∀ p ∈ (ApmMap.new 65).partitions,
      p.start + p.length ≤ 64 + (ApmMap.new 65).raw_data.length / 512 := by
    intro p hp
    rw [new_partitions] at hp
    rw [List.mem_singleton.mp hp]
    show (64 : Nat) ≤ 64 + (ApmMap.new 65).raw_data.length / 512
    exact Nat.le_add_right 64 _
  have h3 : (List.replicate (600 : Nat) (0 : Nat)).length ≤
      (ApmMap.new 65).raw_data.length := by
    rw [List.length_replicate, new_raw_length]
    norm_num
  have h4 : ∀ p ∈ (ApmMap.new 65).partitions,
      p.start * 512 % 4294967296 + p.length * 512 % 4294967296 ≤
        (ApmMap.new 65).raw_data.length := by
    intro p hp
    rw [new_partitions] at hp
    rw [List.mem_singleton.mp hp]
    show (1 : Nat) * 512 % 4294967296 + 0x3f * 512 % 4294967296 ≤
      (ApmMap.new 65).raw_data.length
    rw [new_raw_length]
    norm_num
  refine ((C8_capacity_error_iff (ApmMap.new 65) [97] [98]
    (List.replicate 600 0) 1 h1 h2 h3 h4).1).mpr ?_
  rw [List.length_replicate, new_raw_length,
    show allocCandidate (ApmMap.new 65) = 64 from by decide]
  norm_num

/-! ### C6: the decode loop -/

/-- C6 (amended): when the records at blocks 1..n each parse and declare
`partition_count = n`, `decode` returns exactly those n records — whatever
bytes follow block n.  (The loop's stop test compares the block index with
the *current* record's own count, not the first record's; the records'
counts must therefore agree for the termination the claim describes.) -/
theorem C6_decode_declared_records (data : List Nat)
    (dd : DriverDescriptorBlock) (es : List PartitionEntry)
    (hne : data.length ≠ 0)
    (hdd : parseDriverDesc (getBlock data 0) = some dd)
    (hes : es ≠ [])
    (hparse : ∀ k (hk : k < es.length),
      parseEntry (getBlock data (1 + k)) = some (es.get ⟨k, hk⟩))
    (hcount : ∀ e ∈ es, e.partition_count = es.length)
    (hlen : 512 * es.length + 136 ≤ data.length) :
    decode data = some (.ok
      { update_driver_desc := false, driver_desc := dd,
        update_partition_table := false, partitions := es,
        raw_data := data }) := by
  apply decode_ok data dd es hne hdd
  exact decodeEntries_run data es.length es 1 hes (by omega) hparse hcount hlen

/-- A padded 512-byte partition-record block declaring `partition_count = cnt`. -/
def c6blk (cnt : Nat) : List Nat :=
  (entryToBytes { PartitionEntry.new with partition_count := cnt }).getD [] ++
    List.replicate 376 0

/-- A well-formed 3-record image with a junk block after the table. -/
def c6good : List Nat :=
  c7blkDesc ++ (c6blk 3 ++ (c6blk 3 ++ (c6blk 3 ++ List.replicate 512 7)))

theorem c6blk_len (cnt : Nat) (h : cnt < 4294967296) :
    (c6blk cnt).length = 512 := by
  rw [c6blk]
  have hb : entryToBytes { PartitionEntry.new with partition_count := cnt } =
      some (u16be 0x504d ++ [0, 0] ++ u32be cnt ++ u32be 0 ++ u32be 0 ++
        List.replicate 32 0 ++ List.replicate 32 0 ++ u32be 0 ++ u32be 0 ++
        u32be 0xb7 ++ u32be 0 ++ u32be 0 ++ u32be 0 ++ [0, 0, 0, 0] ++
        u32be 0 ++ [0, 0, 0, 0] ++ u32be 0 ++ List.replicate 16 0) := by
    rw [entryToBytes]
    simp [PartitionEntry.new, writeStringN]
  rw [hb]
  simp [u16be, u32be]

/-- `getBlock` over a leading 512-byte block, with the index given as a
numeral. -/
theorem getBlock_chain (b rest : List Nat) (hb : b.length = 512) (i j : Nat)
    (hij : j = i + 1) : getBlock (b ++ rest) j = getBlock rest i := by
  subst hij
  exact getBlock_append_succ b rest hb i

theorem getBlock_self (b : List Nat) (hb : b.length = 512) :
    getBlock b 0 = b := by
  rw [getBlock]
  simp only [Nat.mul_zero, List.drop_zero]
  exact List.take_of_length_le (by omega)

/-- Witness for C6: the three-record image decodes to exactly its three
records, the junk block notwithstanding. -/
theorem C6_decode_witness :
    decode c6good = some (.ok
      { update_driver_desc := false,
        driver_desc := DriverDescriptorBlock.default,
        update_partition_table := false,
        partitions := [{ PartitionEntry.new with partition_count := 3 },
          { PartitionEntry.new with partition_count := 3 },
          { PartitionEntry.new with partition_count := 3 }],
        raw_data := c6good }) := by
  have hdl : c7blkDesc.length = 512 := by decide
  have hbl : (c6blk 3).length = 512 := c6blk_len 3 (by norm_num)
  have hg1 : getBlock c6good 1 = c6blk 3 := by
    rw [c6good, getBlock_chain _ _ hdl 0 1 rfl, getBlock_append_zero _ _ hbl]
  have hg2 : getBlock c6good 2 = c6blk 3 := by
    rw [c6good, getBlock_chain _ _ hdl 1 2 rfl, getBlock_chain _ _ hbl 0 1 rfl,
      getBlock_append_zero _ _ hbl]
  have hg3 : getBlock c6good 3 = c6blk 3 := by
    rw [c6good, getBlock_chain _ _ hdl 2 3 rfl, getBlock_chain _ _ hbl 1 2 rfl,
      getBlock_chain _ _ hbl 0 1 rfl, getBlock_append_zero _ _ hbl]
  have hplen : c6good.length = 2560 := by
    rw [c6good]
    simp only [List.length_append, hdl, hbl, List.length_replicate]
  apply C6_decode_declared_records
  · rw [hplen]
    omega
  · rw [c6good, getBlock_append_zero _ _ hdl]
    decide
  · simp
  · intro k hk
    simp only [List.length_cons, List.length_nil] at hk
    interval_cases k
    · rw [show (1 : Nat) + 0 = 1 from rfl, hg1]
      show parseEntry (c6blk 3) =
        some { PartitionEntry.new with partition_count := 3 }
      decide
    · rw [show (1 : Nat) + 1 = 2 from rfl, hg2]
      show parseEntry (c6blk 3) =
        some { PartitionEntry.new with partition_count := 3 }
      decide
    · rw [show (1 : Nat) + 2 = 3 from rfl, hg3]
      show parseEntry (c6blk 3) =
        some { PartitionEntry.new with partition_count := 3 }
      decide
  · decide
  · rw [hplen]
    norm_num

/-- A 3-then-2 image: block 1 declares `partition_count = 3` but block 2
declares `partition_count = 2`. -/
def c6bad : List Nat :=
  c7blkDesc ++ (c6blk 3 ++ (c6blk 2 ++ (c6blk 3 ++ List.replicate 512 7)))

/-- Counterexample for C6 as stated: the record at block 1 declares
partition-count 3, but decode parses only 2 records, because the loop stops
when the block index equals the *current* record's own count (here block 2's
count of 2) — not the count declared at block 1. -/
theorem C6_counterexample :
    ∃ m, decode c6bad = some (Except.ok m) ∧
      m.partitions.head?.map (fun p => p.partition_count) = some 3 ∧
      m.partitions.length = 2 := by
  have hdl : c7blkDesc.length = 512 := by decide
  have hb3 : (c6blk 3).length = 512 := c6blk_len 3 (by norm_num)
  have hb2 : (c6blk 2).length = 512 := c6blk_len 2 (by norm_num)
  have hg1 : getBlock c6bad 1 = c6blk 3 := by
    rw [c6bad, getBlock_chain _ _ hdl 0 1 rfl, getBlock_append_zero _ _ hb3]
  have hg2 : getBlock c6bad 2 = c6blk 2 := by
    rw [c6bad, getBlock_chain _ _ hdl 1 2 rfl, getBlock_chain _ _ hb3 0 1 rfl,
      getBlock_append_zero _ _ hb2]
  have hplen : c6bad.length = 2560 := by
    rw [c6bad]
    simp only [List.length_append, hdl, hb3, hb2, List.length_replicate]
  have hnb : numBlocks c6bad = 5 := by
    rw [numBlocks, hplen]
  have hps : decodeEntries c6bad 1 =
      .ok [{ PartitionEntry.new with partition_count := 3 },
           { PartitionEntry.new with partition_count := 2 }] := by
    apply decodeEntries_cont c6bad 1 _ _ (by omega) (by rw [hg1]; decide)
      (by decide)
    apply decodeEntries_stop c6bad 2 _ (by omega) (by rw [hg2]; decide)
      (by decide)
  refine ⟨_, decode_ok c6bad DriverDescriptorBlock.default _
    (by omega) (by rw [c6bad, getBlock_append_zero _ _ hdl]; decide) hps,
    by decide, by decide⟩

end Apm
